import Mathlib

/-!
Shallow embedding of core parts of the rucene search library:
the disjunction scorers (src/core/search/scorer/disjunction_scorer.rs),
the bit-set types (src/core/util/bits.rs),
the norms writer (src/core/codec/norms/norm_values_writer.rs),
score explanations (src/core/search/explanation.rs),
terms (src/core/index/term.rs) and the error type (src/error.rs).

Machine integers (i32 doc ids, i64 values, lengths) are modelled as Int or
Nat; f32 scores are idealized as Rat (the scorer code manipulates them only
through +, max and the tie-breaker formula); fallible code returns Except.
-/

/-- Doc ids are `i32` in the source (`pub type DocId = i32` in core/util/mod.rs). -/
abbrev DocId := Int

/-- `NO_MORE_DOCS = i32::MAX`, the sentinel that terminates doc iteration. -/
def NO_MORE_DOCS : Int := 2147483647

/-- Modelled from the spec: the collector error enum (its source file is not
under the provided tree). Spec section 5: exceeding the search deadline raises
a `SearchTimeout` error, enforced by the collector. -/
inductive CollectorErr where
  | SearchTimeout
  deriving DecidableEq

/-- Modelled from the spec: the search error enum (its source file is not
under the provided tree). Spec section 7 lists `ParseError` among the
library's error kinds; query parsing belongs to the search module. -/
inductive SearchErr where
  | ParseError
  deriving DecidableEq

/-- Modelled from the spec: the index error enum (its source file is not
under the provided tree). Spec section 7 lists `MergeAborted` among the
library's error kinds; merging belongs to the index module. -/
inductive IndexErr where
  | MergeAborted
  deriving DecidableEq

/-- The library error type, src/error.rs lines 27-69. Payloads (message
strings, wrapped std errors) carry no information relevant to the claims and
are elided. -/
inductive Error where
  | Poisoned
  | IllegalState
  | IllegalArgument
  | UnexpectedEOF
  | CorruptIndex
  | UnsupportedOperation
  | AlreadyClosed
  | RuntimeError
  | IOError
  | FmtError
  | FromUtf8Error
  | Utf8Error
  | NumError
  | ParseFloatError
  | SerdeJsonError
  | NulError
  | TimeError
  | CollectorError (e : CollectorErr)
  | SearchError (e : SearchErr)
  | IndexError (e : IndexErr)
  deriving DecidableEq

/-- The error kinds named by spec section 7, plus a catch-all for the
remaining variants of `Error`. -/
inductive ErrorKind where
  | IllegalArgumentK
  | IllegalStateK
  | UnexpectedEOFK
  | CorruptIndexK
  | UnsupportedOperationK
  | AlreadyClosedK
  | IOErrorK
  | PoisonedK
  | ParseErrorK
  | SearchTimeoutK
  | MergeAbortedK
  | OtherK
  deriving DecidableEq

/-- Classification of an `Error` value into the spec section 7 kind it
realizes (variants outside the spec's list map to `OtherK`). -/
def Error.kind : Error → ErrorKind
  | Error.Poisoned => ErrorKind.PoisonedK
  | Error.IllegalState => ErrorKind.IllegalStateK
  | Error.IllegalArgument => ErrorKind.IllegalArgumentK
  | Error.UnexpectedEOF => ErrorKind.UnexpectedEOFK
  | Error.CorruptIndex => ErrorKind.CorruptIndexK
  | Error.UnsupportedOperation => ErrorKind.UnsupportedOperationK
  | Error.AlreadyClosed => ErrorKind.AlreadyClosedK
  | Error.RuntimeError => ErrorKind.OtherK
  | Error.IOError => ErrorKind.IOErrorK
  | Error.FmtError => ErrorKind.OtherK
  | Error.FromUtf8Error => ErrorKind.OtherK
  | Error.Utf8Error => ErrorKind.OtherK
  | Error.NumError => ErrorKind.OtherK
  | Error.ParseFloatError => ErrorKind.OtherK
  | Error.SerdeJsonError => ErrorKind.OtherK
  | Error.NulError => ErrorKind.OtherK
  | Error.TimeError => ErrorKind.OtherK
  | Error.CollectorError CollectorErr.SearchTimeout => ErrorKind.SearchTimeoutK
  | Error.SearchError SearchErr.ParseError => ErrorKind.ParseErrorK
  | Error.IndexError IndexErr.MergeAborted => ErrorKind.MergeAbortedK

/-- The running-minimum fold `curr_doc = curr_doc.min(s.doc_id())` used by
`SimpleQueue::new`, `SubScorers::approximate_next` and
`SubScorers::approximate_advance` (disjunction_scorer.rs lines 194-197,
307-315, 353-360). -/
def minCurFold {α : Type} (cur : α → Int) (l : List α) (a : Int) : Int :=
  l.foldl (fun m s => min m (cur s)) a

def minCurFold_le_init {α : Type} (cur : α → Int) (l : List α) (a : Int) :
    minCurFold cur l a ≤ a := by
  induction l generalizing a with
  | nil => simp [minCurFold]
  | cons x t ih =>
    have h := ih (min a (cur x))
    simp only [minCurFold, List.foldl_cons] at h ⊢
    exact le_trans h (min_le_left _ _)

def minCurFold_le_mem {α : Type} (cur : α → Int) (l : List α) (a : Int)
    (s : α) (hs : s ∈ l) : minCurFold cur l a ≤ cur s := by
  induction l generalizing a with
  | nil => cases hs
  | cons x t ih =>
    rcases List.mem_cons.mp hs with h | h
    · subst h
      have h2 := minCurFold_le_init cur t (min a (cur s))
      simp only [minCurFold, List.foldl_cons] at h2 ⊢
      exact le_trans h2 (min_le_right _ _)
    · have h2 := ih (min a (cur x)) h
      simp only [minCurFold, List.foldl_cons] at h2 ⊢
      exact h2

def le_minCurFold {α : Type} (cur : α → Int) (l : List α) (a b : Int)
    (hb : b ≤ a) (hl : ∀ s ∈ l, b ≤ cur s) : b ≤ minCurFold cur l a := by
  induction l generalizing a with
  | nil => simpa [minCurFold] using hb
  | cons x t ih =>
    have h2 := ih (min a (cur x)) (le_min hb (hl x (List.mem_cons_self x t)))
      (fun s hs => hl s (List.mem_cons_of_mem x hs))
    simp only [minCurFold, List.foldl_cons] at h2 ⊢
    exact h2

def minCurFold_attained {α : Type} (cur : α → Int) (l : List α) (a : Int) :
    minCurFold cur l a = a ∨ ∃ s ∈ l, minCurFold cur l a = cur s := by
  induction l generalizing a with
  | nil => exact Or.inl rfl
  | cons x t ih =>
    have h2 := ih (min a (cur x))
    simp only [minCurFold, List.foldl_cons] at h2 ⊢
    rcases h2 with h2 | ⟨s, hs, h2⟩
    · rcases min_cases a (cur x) with ⟨hm, _⟩ | ⟨hm, _⟩
      · exact Or.inl (h2.trans hm)
      · exact Or.inr ⟨x, List.mem_cons_self x t, h2.trans hm⟩
    · exact Or.inr ⟨s, List.mem_cons_of_mem x hs, h2⟩

/-- The new current doc produced by a child scorer's `approximate_next` under
the doc-iterator contract: the first indexed doc strictly greater than the
current one, and `NO_MORE_DOCS` once none is left. -/
def nextCurVal (cur : Int) (docs : List Int) : Int :=
  match docs.find? (fun d => cur < d) with
  | some d => d
  | none => NO_MORE_DOCS

/-- The new current doc produced by a child scorer's `approximate_advance
(target)` under the doc-iterator contract: the first indexed doc at or after
`target`, and `NO_MORE_DOCS` once none is left. -/
def advanceCurVal (target : Int) (docs : List Int) : Int :=
  match docs.find? (fun d => target ≤ d) with
  | some d => d
  | none => NO_MORE_DOCS

/-- A child scorer of a disjunction, reduced to what the disjunction code
observes: its (sorted) list of matching docs and its current position.
This is the canonical instance of the doc-iterator contract that the claims
assume of the children. -/
structure ChildScorer where
  docs : List Int
  cur : Int
  deriving DecidableEq

def ChildScorer.next (c : ChildScorer) : ChildScorer :=
  { c with cur := nextCurVal c.cur c.docs }

def ChildScorer.advance (c : ChildScorer) (target : Int) : ChildScorer :=
  { c with cur := advanceCurVal target c.docs }

/-- A well-formed child: docs strictly ascending i32 doc ids, and the cursor
is the initial -1, exhausted (`NO_MORE_DOCS`), or sitting on a matching doc. -/
def ChildScorer.Valid (c : ChildScorer) : Prop :=
  List.Sorted (· < ·) c.docs ∧ (∀ d ∈ c.docs, 0 ≤ d ∧ d < NO_MORE_DOCS) ∧
    (c.cur = -1 ∨ c.cur = NO_MORE_DOCS ∨ c.cur ∈ c.docs)

def nextCurVal_gt (cur : Int) (docs : List Int) (h : cur < NO_MORE_DOCS) :
    cur < nextCurVal cur docs := by
  unfold nextCurVal
  cases hf : docs.find? (fun d => cur < d) with
  | none => exact h
  | some d => simpa using List.find?_some hf

/-- The linear `SimpleQueue` of sub-scorers (disjunction_scorer.rs lines
187-203). The stored `curr_doc` field is maintained equal to the minimum of
the children's doc ids at every assignment in the source (`new` line 196,
`approximate_next` line 315, `approximate_advance` line 362), so it is
represented as the derived function `currDoc` below. -/
structure SimpleQueue where
  scorers : List ChildScorer
  deriving DecidableEq

def SimpleQueue.currDoc (sq : SimpleQueue) : Int :=
  minCurFold ChildScorer.cur sq.scorers NO_MORE_DOCS

/-- One pass of the loop body of `SubScorers::approximate_next` (SQ branch,
lines 306-315): advance every child whose doc equals `curr_doc`; the new
`curr_doc` is the new minimum (derived). -/
def SimpleQueue.advanceStep (sq : SimpleQueue) : SimpleQueue :=
  ⟨sq.scorers.map (fun s => if s.cur = sq.currDoc then s.next else s)⟩

/-- The `should_count` computed at lines 318-324: how many children sit at
`curr_doc` (an i32 in the source, hence Int). -/
def SimpleQueue.countMatchedInt (sq : SimpleQueue) : Int :=
  ((sq.scorers.filter (fun s => s.cur = sq.currDoc)).length : Int)

def SimpleQueue.currDoc_le_nmd (sq : SimpleQueue) : sq.currDoc ≤ NO_MORE_DOCS :=
  minCurFold_le_init _ _ _

def SimpleQueue.currDoc_lt_advanceStep (sq : SimpleQueue)
    (h : sq.currDoc ≠ NO_MORE_DOCS) : sq.currDoc < sq.advanceStep.currDoc := by
  have hlt : sq.currDoc < NO_MORE_DOCS := lt_of_le_of_ne (currDoc_le_nmd sq) h
  have hstep : sq.currDoc + 1 ≤ sq.advanceStep.currDoc := by
    apply le_minCurFold
    · omega
    · intro s hs
      simp only [SimpleQueue.advanceStep, List.mem_map] at hs
      obtain ⟨s0, hs0, rfl⟩ := hs
      by_cases hc : s0.cur = sq.currDoc
      · rw [if_pos hc]
        have h2 : s0.cur < s0.next.cur := nextCurVal_gt s0.cur s0.docs (by omega)
        omega
      · rw [if_neg hc]
        have h2 : sq.currDoc ≤ s0.cur :=
          minCurFold_le_mem ChildScorer.cur sq.scorers NO_MORE_DOCS s0 hs0
        omega
  omega

/-- `SubScorers::approximate_next` for the `SimpleQueue` branch (lines
295-333): return immediately at `NO_MORE_DOCS`; otherwise advance all
children at `curr_doc`, recompute the minimum, and retry while
`min_should_match > 1` and fewer than `min_should_match` children sit at the
new minimum. `m` is the already-unwrapped `min_should_match` (the
`unwrap_or(DEFAULT_MIN_SHOULD_MATCH)` of line 298). -/
def SimpleQueue.approxNext (m : Int) (sq : SimpleQueue) : SimpleQueue :=
  if sq.currDoc = NO_MORE_DOCS then sq
  else
    let sq1 := sq.advanceStep
    if 1 < m ∧ sq1.countMatchedInt < m then SimpleQueue.approxNext m sq1
    else sq1
  termination_by (NO_MORE_DOCS + 1 - sq.currDoc).toNat
  decreasing_by
    have h1 := SimpleQueue.currDoc_lt_advanceStep sq (by assumption)
    have h2 := SimpleQueue.currDoc_le_nmd sq.advanceStep
    omega

/-- `SubScorers::approximate_advance` for the `SimpleQueue` branch (lines
352-363): advance every child whose doc is below `target`; the new
`curr_doc` is the new minimum (derived). Note the source performs no
`min_should_match` check here. -/
def SimpleQueue.approxAdvance (target : Int) (sq : SimpleQueue) : SimpleQueue :=
  ⟨sq.scorers.map (fun s => if s.cur < target then s.advance target else s)⟩

/-- `DisjunctionSumScorer::approximate_next` (lines 91-99): passes
`Some(min_should_match)` when it exceeds `DEFAULT_MIN_SHOULD_MATCH = 1`,
otherwise `None`, which `SubScorers::approximate_next` unwraps to 1. -/
def disjunctionSumApproxNext (minShouldMatch : Int) (sq : SimpleQueue) : SimpleQueue :=
  SimpleQueue.approxNext (if 1 < minShouldMatch then minShouldMatch else 1) sq

/-- `DisjunctionSumScorer::approximate_advance` = `advance` (lines 75-77,
101-103): delegates to the sub-scorers with no `min_should_match` filtering. -/
def disjunctionSumAdvance (target : Int) (sq : SimpleQueue) : SimpleQueue :=
  SimpleQueue.approxAdvance target sq

/-- How many children of the queue match doc `d`, i.e. have `d` in their
posting list (as an Int, for comparison with the i32 `min_should_match`). -/
def matchedBy (d : Int) (sq : SimpleQueue) : Int :=
  (sq.scorers.countP (fun s => d ∈ s.docs) : Int)

/-- A well-formed queue: the constructor `debug_assert!(children.len() > 0)`
plus well-formed children. -/
def SQValid (sq : SimpleQueue) : Prop :=
  sq.scorers ≠ [] ∧ ∀ c ∈ sq.scorers, ChildScorer.Valid c

/-- Coherence of the enumeration: no child has skipped past a matching doc
at or after the queue's current doc. It holds for freshly built queues
(all cursors at -1) and is preserved by the iteration. -/
def SQCoherent (sq : SimpleQueue) : Prop :=
  ∀ c ∈ sq.scorers, ∀ x ∈ c.docs, sq.currDoc ≤ x → c.cur ≤ x

instance (c : ChildScorer) : Decidable c.Valid :=
  inferInstanceAs (Decidable (List.Sorted (· < ·) c.docs ∧
    (∀ d ∈ c.docs, 0 ≤ d ∧ d < NO_MORE_DOCS) ∧
    (c.cur = -1 ∨ c.cur = NO_MORE_DOCS ∨ c.cur ∈ c.docs)))

instance (sq : SimpleQueue) : Decidable (SQValid sq) :=
  inferInstanceAs (Decidable (sq.scorers ≠ [] ∧ ∀ c ∈ sq.scorers, c.Valid))

instance (sq : SimpleQueue) : Decidable (SQCoherent sq) :=
  inferInstanceAs
    (Decidable (∀ c ∈ sq.scorers, ∀ x ∈ c.docs, sq.currDoc ≤ x → c.cur ≤ x))

/-- Advance the first child in the list currently at doc `d`. Modelled from
the spec: `DisiPriorityQueue` (core/util/disi.rs, not under the provided
tree) is a min-heap keyed on current doc id; `peek_mut().approximate_next()`
advances the top scorer, one of those whose doc equals the minimum (the
heap's tie order among equal docs is unspecified; we take the first in list
order — the net effect of the surrounding loop is order-independent). -/
def advanceFirstAt (d : Int) : List ChildScorer → List ChildScorer
  | [] => []
  | s :: rest => if s.cur = d then s.next :: rest else s :: advanceFirstAt d rest

/-- Modelled from the spec: the heap of children used by the disjunction
scorers when there are at least 10 children and `min_should_match <= 1`. -/
structure DisiPriorityQueue where
  scorers : List ChildScorer
  deriving DecidableEq

/-- Modelled from the spec: `peek().doc()` of a min-heap keyed on current
doc id is the minimum of the children's doc ids. -/
def DisiPriorityQueue.peekDoc (q : DisiPriorityQueue) : Int :=
  minCurFold ChildScorer.cur q.scorers NO_MORE_DOCS

def DisiPriorityQueue.advanceTop (q : DisiPriorityQueue) : DisiPriorityQueue :=
  ⟨advanceFirstAt q.peekDoc q.scorers⟩

/-- The loop of `SubScorers::approximate_next`, DPQ branch (lines 334-346):
`loop { dbq.peek_mut().approximate_next()?; if dbq.peek().doc() != doc {
break; } }`. The source loop has no fuel; this model adds fuel so that
non-termination of the source is observable as `none` for every fuel. -/
def dpqNextLoop (fuel : Nat) (doc : Int) (q : DisiPriorityQueue) : Option DisiPriorityQueue :=
  match fuel with
  | 0 => none
  | Nat.succ fuel =>
    let q1 := q.advanceTop
    if q1.peekDoc ≠ doc then some q1 else dpqNextLoop fuel doc q1

/-- The DPQ branch of `approximate_next`, run with fuel `children + 1`,
which suffices whenever the current doc is below `NO_MORE_DOCS`. -/
def DisiPriorityQueue.approxNext (q : DisiPriorityQueue) : Option DisiPriorityQueue :=
  dpqNextLoop (q.scorers.length + 1) q.peekDoc q

/-- The source loop modelled by `dpqNextLoop` never exits from `q`: it
returns `none` for every amount of fuel, i.e. the source diverges. -/
def dpqStuck (q : DisiPriorityQueue) : Prop :=
  ∀ fuel : Nat, dpqNextLoop fuel q.peekDoc q = none

/-- Two children for the C1 counterexample: one matching doc 5, one matching
doc 3, both freshly positioned at -1 (`min_should_match = 2` forces the
`SimpleQueue` branch). -/
def advanceCexQueue : SimpleQueue := ⟨[⟨[5], -1⟩, ⟨[3], -1⟩]⟩

/-- A child that has enumerated its single doc 0 and is exhausted. -/
def exhaustedChild : ChildScorer := ⟨[0], NO_MORE_DOCS⟩

/-- Ten exhausted children: enough children for the disjunction constructors
to pick the `DisiPriorityQueue` (lines 41-45, 128-132), all at
`NO_MORE_DOCS`. -/
def dpqAtEnd : DisiPriorityQueue := ⟨List.replicate 10 exhaustedChild⟩

/-- How many children of the heap match doc `d`, i.e. have `d` in their
posting list (cf. `matchedBy` for the `SimpleQueue` branch). -/
def dpqMatchedBy (d : Int) (q : DisiPriorityQueue) : Int :=
  (q.scorers.countP (fun c => d ∈ c.docs) : Int)

/-- A well-formed heap: non-empty (the constructor `debug_assert!`) with
well-formed children (cf. `SQValid`). -/
def DPQValid (q : DisiPriorityQueue) : Prop :=
  q.scorers ≠ [] ∧ ∀ c ∈ q.scorers, ChildScorer.Valid c

/-- Coherence of the heap enumeration (cf. `SQCoherent`): no child has
skipped past a matching doc at or after the heap's top doc. It holds for
freshly built heaps (all cursors at -1) and is preserved by the iteration. -/
def DPQCoherent (q : DisiPriorityQueue) : Prop :=
  ∀ c ∈ q.scorers, ∀ x ∈ c.docs, q.peekDoc ≤ x → c.cur ≤ x

instance (q : DisiPriorityQueue) : Decidable (DPQValid q) :=
  inferInstanceAs (Decidable (q.scorers ≠ [] ∧ ∀ c ∈ q.scorers, c.Valid))

instance (q : DisiPriorityQueue) : Decidable (DPQCoherent q) :=
  inferInstanceAs
    (Decidable (∀ c ∈ q.scorers, ∀ x ∈ c.docs, q.peekDoc ≤ x → c.cur ≤ x))

/-- The per-caller cursor of `SparseBits` (bits.rs lines 220-246). -/
structure SparseBitsContext where
  index : Int
  docId : Int
  nextDocId : Int
  deriving DecidableEq

def SparseBitsContext.new (firstDocId : Int) : SparseBitsContext :=
  ⟨-1, -1, firstDocId⟩

def SparseBitsContext.reset (_ctx : SparseBitsContext) (firstDocId : Int) :
    SparseBitsContext :=
  SparseBitsContext.new firstDocId

/-- `SparseBits` over a `LongValues` reader (bits.rs lines 248-276). The
reader is modelled as a total function `Int → Int`: the packed readers
return the stored value for every in-range index, and all accesses below are
in range under the documented invariants. -/
structure SparseBits where
  maxDoc : Int
  docIdsLength : Int
  firstDocId : Int
  docIds : Int → Int

/-- `SparseBits::new` (bits.rs lines 258-276). -/
def SparseBits.new (maxDoc docIdsLength : Int) (docIds : Int → Int) :
    Except Error SparseBits :=
  if 0 < docIdsLength ∧ maxDoc ≤ docIds (docIdsLength - 1) then
    Except.error Error.IllegalArgument
  else
    Except.ok
      { maxDoc := maxDoc
        docIdsLength := docIdsLength
        firstDocId := if docIdsLength = 0 then maxDoc else docIds 0
        docIds := docIds }

def SparseBits.context (s : SparseBits) : SparseBitsContext :=
  SparseBitsContext.new s.firstDocId

/-- The loop of `SparseBits::gallop` (bits.rs lines 287-304). The proof
argument `h` records `ctx.index < hi_index`, which the source maintains (it
enters with `hi_index = ctx.index + 1` and re-establishes it before each
iteration); it makes the doubling step `hi_index += delta << 1` strictly
increasing, which the termination argument needs. -/
def SparseBits.gallopLoop (s : SparseBits) (target : Int)
    (ctx : SparseBitsContext) (hiIndex : Int) (h : ctx.index < hiIndex) :
    SparseBitsContext × Int :=
  if _hge : s.docIdsLength ≤ hiIndex then
    ({ ctx with nextDocId := s.maxDoc }, s.docIdsLength)
  else
    let hiDoc := s.docIds hiIndex
    if target < hiDoc then
      ({ ctx with nextDocId := hiDoc }, hiIndex)
    else
      SparseBits.gallopLoop s target { ctx with index := hiIndex, docId := hiDoc }
        (hiIndex + (hiIndex - ctx.index) * 2)
        (show hiIndex < hiIndex + (hiIndex - ctx.index) * 2 by omega)
  termination_by (s.docIdsLength - hiIndex).toNat
  decreasing_by omega

/-- `SparseBits::gallop` (bits.rs lines 283-305): step the cursor forward
once, then double the stride until an index holding a value above `target`
(or the end) is found. Returns the updated cursor and the `hi_index`. -/
def SparseBits.gallop (s : SparseBits) (ctx : SparseBitsContext) (target : Int) :
    SparseBitsContext × Int :=
  SparseBits.gallopLoop s target
    { index := ctx.index + 1, docId := ctx.nextDocId, nextDocId := ctx.nextDocId }
    (ctx.index + 1 + 1) (show ctx.index + 1 < ctx.index + 1 + 1 by omega)

/-- `SparseBits::binary_search` (bits.rs lines 307-325). -/
def SparseBits.binarySearchLoop (s : SparseBits) (target : Int)
    (ctx : SparseBitsContext) (hiIndex : Int) : SparseBitsContext :=
  if _hlt : ctx.index + 1 < hiIndex then
    let midIndex := ctx.index + (hiIndex - ctx.index) / 2
    let midDoc := s.docIds midIndex
    if target < midDoc then
      SparseBits.binarySearchLoop s target { ctx with nextDocId := midDoc } midIndex
    else
      SparseBits.binarySearchLoop s target
        { ctx with index := midIndex, docId := midDoc } hiIndex
  else ctx
  termination_by (hiIndex - ctx.index).toNat
  decreasing_by
    · omega
    · omega

/-- `SparseBits::check_invariants` (bits.rs lines 327-362); the formatted
messages are elided, each failing branch yields `IllegalState`. -/
def SparseBits.checkInvariants (s : SparseBits) (ctx : SparseBitsContext)
    (nextIndex target : Int) : Except Error Unit :=
  if ctx.docId > target ∨ ctx.nextDocId ≤ target then
    Except.error Error.IllegalState
  else if ¬ ((ctx.index = -1 ∧ ctx.docId = -1) ∨ ctx.docId = s.docIds ctx.index) then
    Except.error Error.IllegalState
  else if ¬ ((nextIndex = s.docIdsLength ∧ ctx.nextDocId = s.maxDoc) ∨
      ctx.nextDocId = s.docIds nextIndex) then
    Except.error Error.IllegalState
  else Except.ok ()

/-- `SparseBits::exponential_search` (bits.rs lines 364-370). -/
def SparseBits.exponentialSearch (s : SparseBits) (ctx : SparseBitsContext)
    (target : Int) : Except Error SparseBitsContext :=
  let g := SparseBits.gallop s ctx target
  match SparseBits.checkInvariants s g.1 g.2 target with
  | Except.error e => Except.error e
  | Except.ok _ => Except.ok (SparseBits.binarySearchLoop s target g.1 g.2)

/-- `SparseBits::get64` (bits.rs lines 372-384); the `&mut` cursor is made
explicit: the updated cursor is returned with the answer. -/
def SparseBits.get64 (s : SparseBits) (ctx : SparseBitsContext) (target : Int) :
    Except Error (Bool × SparseBitsContext) :=
  let c0 := if target < ctx.docId then ctx.reset s.firstDocId else ctx
  match (if c0.nextDocId ≤ target then SparseBits.exponentialSearch s c0 target
         else Except.ok c0) with
  | Except.error e => Except.error e
  | Except.ok c1 =>
    match SparseBits.checkInvariants s c1 (c1.index + 1) target with
    | Except.error e => Except.error e
    | Except.ok _ => Except.ok (decide (target = c1.docId), c1)

/-- `target` occurs in the doc-id sequence of `s`. -/
def SBMem (s : SparseBits) (target : Int) : Prop :=
  ∃ i, 0 ≤ i ∧ i < s.docIdsLength ∧ s.docIds i = target

/-- The resting-state invariant of a `SparseBits` cursor: it is either the
fresh cursor (index -1, doc -1) or denotes a real position, and `nextDocId`
is the value one past `index` (or `max_doc` at the end). It holds for the
cursor `SparseBits::context` hands out and is preserved by every `get64`. -/
def CtxValid (s : SparseBits) (ctx : SparseBitsContext) : Prop :=
  ((ctx.index = -1 ∧ ctx.docId = -1) ∨
    (0 ≤ ctx.index ∧ ctx.index < s.docIdsLength ∧ ctx.docId = s.docIds ctx.index)) ∧
  ((ctx.index + 1 = s.docIdsLength ∧ ctx.nextDocId = s.maxDoc) ∨
    (ctx.index + 1 < s.docIdsLength ∧ ctx.nextDocId = s.docIds (ctx.index + 1)))

/-- The doc-id sequence of `s` is strictly ascending on `[0, docIdsLength)`. -/
def SBSorted (s : SparseBits) : Prop :=
  ∀ i j : Int, 0 ≤ i → i < j → j < s.docIdsLength → s.docIds i < s.docIds j

/-- `MatchAllBits` (bits.rs lines 58-91). -/
structure MatchAllBits where
  len : Nat
  deriving DecidableEq

def MatchAllBits.new (len : Nat) : MatchAllBits := ⟨len⟩

def MatchAllBits.get (_b : MatchAllBits) (_index : Nat) : Bool := true

def MatchAllBits.length (b : MatchAllBits) : Nat := b.len

/-- The overriding `is_empty` of `MatchAllBits` (bits.rs lines 78-80):
always true. -/
def MatchAllBits.isEmpty (_b : MatchAllBits) : Bool := true

/-- `MatchNoBits` (bits.rs lines 93-126). -/
structure MatchNoBits where
  len : Nat
  deriving DecidableEq

def MatchNoBits.new (len : Nat) : MatchNoBits := ⟨len⟩

def MatchNoBits.get (_b : MatchNoBits) (_index : Nat) : Bool := false

def MatchNoBits.length (b : MatchNoBits) : Nat := b.len

/-- The overriding `is_empty` of `MatchNoBits` (bits.rs lines 113-115):
always true. -/
def MatchNoBits.isEmpty (_b : MatchNoBits) : Bool := true

/-- The `Bits` trait default `is_empty`: `self.len() == 0` (bits.rs lines
33-35). -/
def bitsDefaultIsEmpty (len : Nat) : Bool := len == 0

/-- The sentinel recorded at flush for docs with no norm value
(norm_values_writer.rs line 29). -/
def MISSING : Int := 0

/-- `NormValuesWriter` (norm_values_writer.rs lines 31-36). Modelled from
the spec where the source is not in the provided tree: `pending`
(a `PackedLongValuesBuilder`, spec section 4.2: a delta builder whose
iterator replays the added values in order) is a list of values;
`docs_with_field` (a `FixedBitSet`, spec section 4.2: get/set/ensure_capacity)
is the set of set bits, as a list; `ensure_capacity` needs no model since
bits beyond capacity are unset. The `field_info` is irrelevant here. -/
structure NormValuesWriter where
  pending : List Int
  docsWithField : List Int
  lastDoc : Int
  deriving DecidableEq

def NormValuesWriter.new : NormValuesWriter := ⟨[], [], -1⟩

/-- `NormValuesWriter::add_value` (lines 52-58): record presence of `docId`
and append `value`; the `debug_assert!(last_doc < doc_id)` is the
precondition carried by the theorems. -/
def NormValuesWriter.addValue (w : NormValuesWriter) (docId : Int) (value : Int) :
    NormValuesWriter :=
  { pending := w.pending ++ [value]
    docsWithField := w.docsWithField ++ [docId]
    lastDoc := docId }

/-- `NumericIter::next` (lines 109-127) iterated to exhaustion: while
`upto < max_doc`, emit `MISSING` when `upto` is not in `docs_with_field`
(which covers the `upto >= docs_with_field.len()` case, since bits beyond
capacity are unset), else the next pending value. The countdown `rem`
stands for `max_doc - upto`. `headD 0` stands for the `unwrap()` of
`values_iter.next()`, which cannot fail while some bit at or after `upto`
is set. -/
def numericIterGo (docsWithField : List Int) : List Int → Nat → Nat → List Int
  | _, _, 0 => []
  | vals, upto, Nat.succ rem =>
    if (upto : Int) ∈ docsWithField then
      vals.headD 0 :: numericIterGo docsWithField vals.tail (upto + 1) rem
    else
      MISSING :: numericIterGo docsWithField vals (upto + 1) rem

/-- The unsorted branch of `NormValuesWriter::flush` (lines 79-83): the
sequence of values the fresh `NumericIter` yields. -/
def NormValuesWriter.flushUnsorted (w : NormValuesWriter) (maxDoc : Nat) : List Int :=
  numericIterGo w.docsWithField w.pending 0 maxDoc

/-- `Explanation` (explanation.rs lines 16-22); the f32 `value` is idealized
as Rat and the `String` description as an arbitrary type. -/
inductive Explanation (α : Type) where
  | mk (isMatched : Bool) (value : Rat) (description : α)
      (details : List (Explanation α))

/-- `Explanation::new` (explanation.rs lines 24-39): the stored value is
forced to 0 when `is_match` is false. -/
def Explanation.new {α : Type} (isMatch : Bool) (value : Rat) (description : α)
    (details : List (Explanation α)) : Explanation α :=
  Explanation.mk isMatch (if !isMatch then 0 else value) description details

def Explanation.isMatch {α : Type} : Explanation α → Bool
  | Explanation.mk m _ _ _ => m

def Explanation.value {α : Type} : Explanation α → Rat
  | Explanation.mk _ v _ _ => v

/-- `Term` (term.rs lines 20-25): a field name and the term bytes. The field
name is represented by its UTF-8 bytes (Rust's `String` ordering is the
lexicographic order of the UTF-8 bytes, which UTF-8 makes identical to
code-point order). -/
structure Term where
  field : List Nat
  bytes : List Nat
  deriving DecidableEq

/-- Rust's derived `Ord` on slices/Vec/String: compare element-wise, the
first non-equal pair decides; a strict prefix is smaller. -/
def compareListNat : List Nat → List Nat → Ordering
  | [], [] => Ordering.eq
  | [], _ :: _ => Ordering.lt
  | _ :: _, [] => Ordering.gt
  | a :: l1, b :: l2 =>
    match compare a b with
    | Ordering.eq => compareListNat l1 l2
    | o => o

/-- The `#[derive(PartialOrd, Ord)]` on `Term` (term.rs line 20): compare
`field` first, then `bytes`. -/
def Term.cmp (t1 t2 : Term) : Ordering :=
  match compareListNat t1.field t2.field with
  | Ordering.eq => compareListNat t1.bytes t2.bytes
  | o => o

/-- A child of `DisjunctionMaxScorer` as `score_max` observes it: its
current doc id and the score its `score()` returns there (f32 idealized as
Rat). -/
structure ScoredChild where
  cur : Int
  score : Rat
  deriving DecidableEq

def scoredCurrDoc (children : List ScoredChild) : Int :=
  minCurFold ScoredChild.cur children NO_MORE_DOCS

/-- `SubScorers::score_max`, SQ branch (disjunction_scorer.rs lines
246-263): one pass accumulating `score_sum` and `score_max` over the
children positioned at `curr_doc`, then `max + (sum - max) * tie`. The f32
`NEG_INFINITY` starting value of `score_max` is modelled by the absent
accumulator (`none`), since `max(NEG_INFINITY, x) = x`; the `none` result
case (no child at `curr_doc` — unreachable, the minimum is attained) is
given the junk value 0 where the source would produce a NaN. -/
def scoreMaxFold (tie : Rat) (children : List ScoredChild) : Rat :=
  let doc := scoredCurrDoc children
  let acc := children.foldl
    (fun (a : Rat × Option Rat) s =>
      if s.cur = doc then
        (a.1 + s.score,
          some (match a.2 with
                | none => s.score
                | some m => max m s.score))
      else a)
    (0, none)
  match acc.2 with
  | some m => m + (acc.1 - m) * tie
  | none => 0

/-- `DisjunctionMaxScorer::score` (lines 143-151): 0 when scores are not
needed, else `score_max(tie_breaker_multiplier)`. -/
def disjunctionMaxScore (needsScores : Bool) (tie : Rat)
    (children : List ScoredChild) : Rat :=
  if !needsScores then 0 else scoreMaxFold tie children

theorem compareListNat_lt_iff :
    ∀ l1 l2 : List Nat, compareListNat l1 l2 = Ordering.lt ↔ List.Lex (· < ·) l1 l2 := by
  intro l1
  induction l1 with
  | nil =>
    intro l2
    cases l2 with
    | nil =>
      simp only [compareListNat]
      constructor
      · intro h; cases h
      · intro h; cases h
    | cons b u =>
      simp only [compareListNat]
      exact ⟨fun _ => List.Lex.nil, fun _ => trivial⟩
  | cons a t ih =>
    intro l2
    cases l2 with
    | nil =>
      simp only [compareListNat]
      constructor
      · intro h; cases h
      · intro h; cases h
    | cons b u =>
      cases hc : compare a b with
      | eq =>
        have hab : a = b := Nat.compare_eq_eq.mp hc
        subst hab
        simp only [compareListNat, hc]
        constructor
        · intro h; exact List.Lex.cons ((ih u).mp h)
        · intro h
          cases h with
          | rel hr => exact absurd hr (lt_irrefl a)
          | cons h2 => exact (ih u).mpr h2
      | lt =>
        have hab : a < b := Nat.compare_eq_lt.mp hc
        simp only [compareListNat, hc]
        exact ⟨fun _ => List.Lex.rel hab, fun _ => trivial⟩
      | gt =>
        have hab : b < a := Nat.compare_eq_gt.mp hc
        simp only [compareListNat, hc]
        constructor
        · intro h; cases h
        · intro h
          cases h with
          | rel hr => exact absurd hr (by omega)
          | cons h2 => exact absurd hab (lt_irrefl a)

theorem compareListNat_eq_iff :
    ∀ l1 l2 : List Nat, compareListNat l1 l2 = Ordering.eq ↔ l1 = l2 := by
  intro l1
  induction l1 with
  | nil =>
    intro l2
    cases l2 with
    | nil => simp [compareListNat]
    | cons b u =>
      simp only [compareListNat]
      constructor
      · intro h; cases h
      · intro h; cases h
  | cons a t ih =>
    intro l2
    cases l2 with
    | nil =>
      simp only [compareListNat]
      constructor
      · intro h; cases h
      · intro h; cases h
    | cons b u =>
      cases hc : compare a b with
      | eq =>
        have hab : a = b := Nat.compare_eq_eq.mp hc
        subst hab
        simp only [compareListNat, hc]
        constructor
        · intro h; rw [(ih u).mp h]
        · intro h
          exact (ih u).mpr (by injection h)
      | lt =>
        have hab : a < b := Nat.compare_eq_lt.mp hc
        simp only [compareListNat, hc]
        constructor
        · intro h; cases h
        · intro h
          injection h with h1 _
          omega
      | gt =>
        have hab : b < a := Nat.compare_eq_gt.mp hc
        simp only [compareListNat, hc]
        constructor
        · intro h; cases h
        · intro h
          injection h with h1 _
          omega

/-- C7: the derived ordering on `Term` is lexicographic on the field and
then on the bytes: `t1 < t2` (i.e. `cmp = lt`) iff `field1 < field2`
lexicographically, or the fields are equal and `bytes1 < bytes2`
lexicographically; `cmp = eq` iff both components are equal. -/
theorem term_ord_lexicographic :
    ∀ t1 t2 : Term,
      (Term.cmp t1 t2 = Ordering.lt ↔
        (List.Lex (· < ·) t1.field t2.field ∨
          (t1.field = t2.field ∧ List.Lex (· < ·) t1.bytes t2.bytes))) ∧
      (Term.cmp t1 t2 = Ordering.eq ↔ t1 = t2) := by
  intro t1 t2
  obtain ⟨f1, b1⟩ := t1
  obtain ⟨f2, b2⟩ := t2
  cases hc : compareListNat f1 f2 with
  | eq =>
    have hf : f1 = f2 := (compareListNat_eq_iff f1 f2).mp hc
    subst hf
    have hcmp : Term.cmp ⟨f1, b1⟩ ⟨f1, b2⟩ = compareListNat b1 b2 := by
      simp only [Term.cmp, hc]
    rw [hcmp]
    have hnlex : ¬ List.Lex (· < ·) f1 f1 := fun h => by
      have h2 := (compareListNat_lt_iff f1 f1).mpr h
      rw [hc] at h2
      cases h2
    constructor
    · constructor
      · intro h
        exact Or.inr ⟨rfl, (compareListNat_lt_iff b1 b2).mp h⟩
      · intro h
        rcases h with h | ⟨_, h⟩
        · exact absurd h hnlex
        · exact (compareListNat_lt_iff b1 b2).mpr h
    · rw [compareListNat_eq_iff b1 b2]
      constructor
      · intro h; rw [h]
      · intro h
        exact congrArg Term.bytes h
  | lt =>
    have hcmp : Term.cmp ⟨f1, b1⟩ ⟨f2, b2⟩ = Ordering.lt := by
      simp only [Term.cmp, hc]
    rw [hcmp]
    have hlex := (compareListNat_lt_iff f1 f2).mp hc
    have hne : f1 ≠ f2 := fun h => by
      rw [(compareListNat_eq_iff f1 f2).mpr h] at hc
      cases hc
    constructor
    · exact ⟨fun _ => Or.inl hlex, fun _ => rfl⟩
    · constructor
      · intro h; cases h
      · intro h
        injection h with h1 h2
        exact absurd h1 hne
  | gt =>
    have hcmp : Term.cmp ⟨f1, b1⟩ ⟨f2, b2⟩ = Ordering.gt := by
      simp only [Term.cmp, hc]
    rw [hcmp]
    have hne : f1 ≠ f2 := fun h => by
      rw [(compareListNat_eq_iff f1 f2).mpr h] at hc
      cases hc
    have hnlex : ¬ List.Lex (· < ·) f1 f2 := fun h => by
      rw [(compareListNat_lt_iff f1 f2).mpr h] at hc
      cases hc
    constructor
    · constructor
      · intro h; cases h
      · intro h
        rcases h with h | ⟨h, _⟩
        · exact absurd h hnlex
        · exact absurd h hne
    · constructor
      · intro h; cases h
      · intro h
        injection h with h1 h2
        exact absurd h1 hne

/-- C10: `MatchAllBits::new(len)` and `MatchNoBits::new(len)` both report
`is_empty() == true` for every `len` (overriding the `Bits` default
`is_empty() == (len() == 0)`, which is false for `len + 1 > 0`), while
`len()` returns `len`; their `get(i)` is constantly true (resp. false). -/
theorem match_all_no_bits_spec :
    ∀ (len i : Nat),
      (MatchAllBits.new len).get i = true ∧
      (MatchAllBits.new len).length = len ∧
      (MatchAllBits.new len).isEmpty = true ∧
      (MatchNoBits.new len).get i = false ∧
      (MatchNoBits.new len).length = len ∧
      (MatchNoBits.new len).isEmpty = true ∧
      (bitsDefaultIsEmpty len = true ↔ len = 0) ∧
      (MatchAllBits.new (len + 1)).isEmpty = true ∧
      bitsDefaultIsEmpty ((MatchAllBits.new (len + 1)).length) = false := by
  intro len i
  refine ⟨rfl, rfl, rfl, rfl, rfl, rfl, ?_, rfl, ?_⟩
  · simp [bitsDefaultIsEmpty]
  · simp [bitsDefaultIsEmpty, MatchAllBits.length, MatchAllBits.new]

/-- C6: `Explanation::new(m, v, d, dt)` stores value `v` when `m` holds and
0 otherwise; hence an explanation built with `is_match() == false` has
`value() == 0`. -/
theorem explanation_new_value_spec :
    ∀ (α : Type) (m : Bool) (v : Rat) (d : α) (dt : List (Explanation α)),
      (Explanation.new m v d dt).value = (if m then v else 0) ∧
      ((Explanation.new m v d dt).isMatch = false →
        (Explanation.new m v d dt).value = 0) := by
  intro α m v d dt
  cases m <;>
    simp [Explanation.new, Explanation.value, Explanation.isMatch]

theorem explanation_new_value_spec_witness :
    (Explanation.new false 5 (0 : Nat) []).value = 0 :=
  (explanation_new_value_spec Nat false 5 0 []).2 rfl

/-- C8: the eleven error kinds listed by spec section 7 are pairwise
distinct, and each is realized by a variant of the library's error type; in
particular I/O errors, EOF and corruption map to the three distinct kinds
`IOErrorK`, `UnexpectedEOFK`, `CorruptIndexK`. -/
theorem error_kinds_pairwise_distinct :
    ([ErrorKind.IllegalArgumentK, ErrorKind.IllegalStateK, ErrorKind.UnexpectedEOFK,
      ErrorKind.CorruptIndexK, ErrorKind.UnsupportedOperationK, ErrorKind.AlreadyClosedK,
      ErrorKind.IOErrorK, ErrorKind.PoisonedK, ErrorKind.ParseErrorK,
      ErrorKind.SearchTimeoutK, ErrorKind.MergeAbortedK] : List ErrorKind).Nodup ∧
    Error.kind Error.IllegalArgument = ErrorKind.IllegalArgumentK ∧
    Error.kind Error.IllegalState = ErrorKind.IllegalStateK ∧
    Error.kind Error.UnexpectedEOF = ErrorKind.UnexpectedEOFK ∧
    Error.kind Error.CorruptIndex = ErrorKind.CorruptIndexK ∧
    Error.kind Error.UnsupportedOperation = ErrorKind.UnsupportedOperationK ∧
    Error.kind Error.AlreadyClosed = ErrorKind.AlreadyClosedK ∧
    Error.kind Error.IOError = ErrorKind.IOErrorK ∧
    Error.kind Error.Poisoned = ErrorKind.PoisonedK ∧
    Error.kind (Error.SearchError SearchErr.ParseError) = ErrorKind.ParseErrorK ∧
    Error.kind (Error.CollectorError CollectorErr.SearchTimeout) = ErrorKind.SearchTimeoutK ∧
    Error.kind (Error.IndexError IndexErr.MergeAborted) = ErrorKind.MergeAbortedK := by
  decide

/-- C9: `SparseBits::new(max_doc, doc_ids_length, doc_ids)` fails with
`IllegalArgument` exactly when `doc_ids_length > 0` and
`max_doc <= doc_ids[doc_ids_length - 1]`; on success `first_doc_id` is
`doc_ids[0]` when the length is positive and `max_doc` otherwise. -/
theorem sparse_bits_new_spec :
    ∀ (maxDoc docIdsLength : Int) (docIds : Int → Int),
      match SparseBits.new maxDoc docIdsLength docIds with
      | Except.error e =>
          e = Error.IllegalArgument ∧ 0 < docIdsLength ∧
            maxDoc ≤ docIds (docIdsLength - 1)
      | Except.ok s =>
          ¬ (0 < docIdsLength ∧ maxDoc ≤ docIds (docIdsLength - 1)) ∧
          s.maxDoc = maxDoc ∧ s.docIdsLength = docIdsLength ∧ s.docIds = docIds ∧
          s.firstDocId = (if docIdsLength = 0 then maxDoc else docIds 0) := by
  intro md len f
  by_cases h : 0 < len ∧ md ≤ f (len - 1)
  · unfold SparseBits.new
    rw [if_pos h]
    exact ⟨rfl, h⟩
  · unfold SparseBits.new
    rw [if_neg h]
    exact ⟨h, rfl, rfl, rfl, rfl⟩

theorem foldl_ite_filter {α β : Type} (p : α → Prop) [DecidablePred p]
    (g : β → α → β) :
    ∀ (l : List α) (a : β),
      l.foldl (fun acc s => if p s then g acc s else acc) a
        = (l.filter (fun s => decide (p s))).foldl g a := by
  intro l
  induction l with
  | nil => intro a; rfl
  | cons x t ih =>
    intro a
    by_cases h : p x <;> simp [List.filter_cons, h, ih]

theorem scoreFoldPair :
    ∀ (sel : List ScoredChild) (a macc : Rat),
      sel.foldl
        (fun (acc : Rat × Option Rat) s =>
          (acc.1 + s.score,
            some (match acc.2 with
                  | none => s.score
                  | some m => max m s.score)))
        (a, some macc)
      = (a + (sel.map ScoredChild.score).sum,
          some ((sel.map ScoredChild.score).foldl max macc)) := by
  intro sel
  induction sel with
  | nil => intro a macc; simp
  | cons s t ih =>
    intro a macc
    simp only [List.foldl_cons]
    rw [ih (a + s.score) (max macc s.score)]
    simp only [List.map_cons, List.sum_cons, List.foldl_cons, Prod.mk.injEq]
    exact ⟨by ring, trivial⟩

theorem scoreAccFilter (doc : Int) :
    ∀ (l : List ScoredChild) (a : Rat × Option Rat),
      l.foldl
        (fun acc s =>
          if s.cur = doc then
            (acc.1 + s.score,
              some (match acc.2 with
                    | none => s.score
                    | some m => max m s.score))
          else acc) a
      = (l.filter (fun s => decide (s.cur = doc))).foldl
          (fun acc s =>
            (acc.1 + s.score,
              some (match acc.2 with
                    | none => s.score
                    | some m => max m s.score))) a := by
  intro l
  induction l with
  | nil => intro a; rfl
  | cons x t ih =>
    intro a
    by_cases h : x.cur = doc <;> simp [List.filter_cons, h, ih, List.foldl_cons]

theorem scoreFoldFromNone (s1 : ScoredChild) (sel : List ScoredChild) :
    (s1 :: sel).foldl
      (fun (acc : Rat × Option Rat) s =>
        (acc.1 + s.score,
          some (match acc.2 with
                | none => s.score
                | some m => max m s.score)))
      (0, none)
    = (0 + s1.score + (sel.map ScoredChild.score).sum,
        some ((sel.map ScoredChild.score).foldl max s1.score)) := by
  simp only [List.foldl_cons]
  exact scoreFoldPair sel (0 + s1.score) s1.score

theorem scoreMaxFold_eq (tie : Rat) (children : List ScoredChild)
    (s1 : ScoredChild) (sel : List ScoredChild)
    (hsel : children.filter (fun c => decide (c.cur = scoredCurrDoc children))
      = s1 :: sel) :
    scoreMaxFold tie children
      = ((sel.map ScoredChild.score).foldl max s1.score)
        + ((s1.score + (sel.map ScoredChild.score).sum)
            - (sel.map ScoredChild.score).foldl max s1.score) * tie := by
  simp only [scoreMaxFold]
  rw [scoreAccFilter (scoredCurrDoc children) children (0, none), hsel,
    scoreFoldFromNone]
  show ((sel.map ScoredChild.score).foldl max s1.score)
      + ((0 + s1.score + (sel.map ScoredChild.score).sum)
        - (sel.map ScoredChild.score).foldl max s1.score) * tie
    = ((sel.map ScoredChild.score).foldl max s1.score)
      + ((s1.score + (sel.map ScoredChild.score).sum)
        - (sel.map ScoredChild.score).foldl max s1.score) * tie
  rw [zero_add]

/-- C2: for a `DisjunctionMaxScorer` built with `needs_scores = true` and
tie-breaker `tie` over a non-empty list of children (with i32 doc ids),
`score()` returns `max + (sum - max) * tie`, where `max` and `sum` are the
maximum and the sum of the scores of exactly the children positioned at the
scorer's current doc (f32 arithmetic idealized as Rat). -/
theorem disjunction_max_score_formula
    (tie : Rat) (children : List ScoredChild)
    (hne : children ≠ [])
    (hbound : ∀ s ∈ children, s.cur ≤ NO_MORE_DOCS) :
    ∃ m,
      ((children.filter (fun s => s.cur = scoredCurrDoc children)).map
          ScoredChild.score).max? = some m ∧
      disjunctionMaxScore true tie children
        = m + (((children.filter (fun s => s.cur = scoredCurrDoc children)).map
            ScoredChild.score).sum - m) * tie := by
  obtain ⟨s, hs, hcur⟩ : ∃ s ∈ children, s.cur = scoredCurrDoc children := by
    rcases minCurFold_attained ScoredChild.cur children NO_MORE_DOCS with h | ⟨s, hs, h⟩
    · obtain ⟨s0, l0, rfl⟩ := List.exists_cons_of_ne_nil hne
      have h1 := minCurFold_le_mem ScoredChild.cur (s0 :: l0) NO_MORE_DOCS s0
        (List.mem_cons_self s0 l0)
      have h2 := hbound s0 (List.mem_cons_self s0 l0)
      refine ⟨s0, List.mem_cons_self s0 l0, ?_⟩
      show s0.cur = minCurFold ScoredChild.cur (s0 :: l0) NO_MORE_DOCS
      omega
    · exact ⟨s, hs, h.symm⟩
  have hself : s ∈ children.filter (fun c => decide (c.cur = scoredCurrDoc children)) :=
    List.mem_filter.mpr ⟨hs, by simp [hcur]⟩
  obtain ⟨s1, sel, hsel⟩ := List.exists_cons_of_ne_nil (List.ne_nil_of_mem hself)
  refine ⟨(sel.map ScoredChild.score).foldl max s1.score, ?_, ?_⟩
  · rw [hsel]
    rfl
  · show scoreMaxFold tie children = _
    rw [scoreMaxFold_eq tie children s1 sel hsel, hsel]
    simp [List.sum_cons]

theorem disjunction_max_score_formula_witness :
    ∃ m,
      ((([⟨3, 2⟩, ⟨3, 5⟩, ⟨7, 1⟩] : List ScoredChild).filter
          (fun s => s.cur = scoredCurrDoc [⟨3, 2⟩, ⟨3, 5⟩, ⟨7, 1⟩])).map
          ScoredChild.score).max? = some m ∧
      disjunctionMaxScore true (1/2) [⟨3, 2⟩, ⟨3, 5⟩, ⟨7, 1⟩]
        = m + (((([⟨3, 2⟩, ⟨3, 5⟩, ⟨7, 1⟩] : List ScoredChild).filter
            (fun s => s.cur = scoredCurrDoc [⟨3, 2⟩, ⟨3, 5⟩, ⟨7, 1⟩])).map
            ScoredChild.score).sum - m) * (1/2) :=
  disjunction_max_score_formula (1/2) [⟨3, 2⟩, ⟨3, 5⟩, ⟨7, 1⟩]
    (by decide) (by decide)

theorem lookup_cons_ne (d k v : Int) (t : List (Int × Int)) (h : d ≠ k) :
    ((k, v) :: t).lookup d = t.lookup d := by
  simp [List.lookup_cons, beq_eq_false_iff_ne.mpr h]

theorem lookup_eq_none_of_not_mem :
    ∀ (l : List (Int × Int)) (d : Int), d ∉ l.map Prod.fst → l.lookup d = none := by
  intro l
  induction l with
  | nil => intro d _; rfl
  | cons p t ih =>
    intro d hd
    obtain ⟨k, v⟩ := p
    simp only [List.map_cons, List.mem_cons] at hd
    push_neg at hd
    rw [lookup_cons_ne d k v t hd.1]
    exact ih d hd.2

theorem foldl_addValue_pending :
    ∀ (adds : List (Int × Int)) (w : NormValuesWriter),
      (adds.foldl (fun w p => w.addValue p.1 p.2) w).pending
        = w.pending ++ adds.map Prod.snd := by
  intro adds
  induction adds with
  | nil => intro w; simp
  | cons p t ih =>
    intro w
    simp only [List.foldl_cons, List.map_cons]
    rw [ih (w.addValue p.1 p.2)]
    simp [NormValuesWriter.addValue]

theorem foldl_addValue_docs :
    ∀ (adds : List (Int × Int)) (w : NormValuesWriter),
      (adds.foldl (fun w p => w.addValue p.1 p.2) w).docsWithField
        = w.docsWithField ++ adds.map Prod.fst := by
  intro adds
  induction adds with
  | nil => intro w; simp
  | cons p t ih =>
    intro w
    simp only [List.foldl_cons, List.map_cons]
    rw [ih (w.addValue p.1 p.2)]
    simp [NormValuesWriter.addValue]

theorem numericIterGo_spec :
    ∀ (rem upto : Nat) (todo : List (Int × Int)) (dw : List Int),
      List.Pairwise (· < ·) (todo.map Prod.fst) →
      (∀ p ∈ todo, (upto : Int) ≤ p.1) →
      (∀ d : Int, (upto : Int) ≤ d → (d ∈ dw ↔ d ∈ todo.map Prod.fst)) →
      numericIterGo dw (todo.map Prod.snd) upto rem
        = (List.range' upto rem).map (fun (u : Nat) => ((todo.lookup (u : Int)).getD 0)) := by
  intro rem
  induction rem with
  | zero => intro upto todo dw _ _ _; rfl
  | succ rem ih =>
    intro upto todo dw hpw hge hmem
    rw [List.range'_succ, List.map_cons]
    by_cases hin : (upto : Int) ∈ dw
    · have hintodo : (upto : Int) ∈ todo.map Prod.fst := (hmem upto le_rfl).mp hin
      cases todo with
      | nil => simp at hintodo
      | cons p t =>
        obtain ⟨k, v⟩ := p
        simp only [List.map_cons] at hintodo hpw hmem
        have hk : k = (upto : Int) := by
          rcases List.mem_cons.mp hintodo with h | h
          · exact h.symm
          · have h1 := (List.pairwise_cons.mp hpw).1 _ h
            have h2 := hge (k, v) (List.mem_cons_self _ _)
            simp only at h1 h2
            omega
        subst hk
        have hge2 : ∀ p ∈ t, ((upto + 1 : Nat) : Int) ≤ p.1 := by
          intro p hp
          have h1 := (List.pairwise_cons.mp hpw).1 p.1 (List.mem_map_of_mem Prod.fst hp)
          simp only at h1
          push_cast
          omega
        have hmem2 : ∀ d : Int, ((upto + 1 : Nat) : Int) ≤ d →
            (d ∈ dw ↔ d ∈ t.map Prod.fst) := by
          intro d hd
          push_cast at hd
          rw [hmem d (by omega)]
          constructor
          · intro h
            rcases List.mem_cons.mp h with h | h
            · exfalso; omega
            · exact h
          · intro h
            exact List.mem_cons_of_mem _ h
        have hhead : (((((upto : Nat) : Int), v) :: t).lookup ((upto : Nat) : Int)).getD 0
            = v := by
          simp [List.lookup_cons]
        rw [hhead]
        simp only [List.map_cons, numericIterGo, if_pos hin, List.headD_cons,
          List.tail_cons]
        congr 1
        rw [ih (upto + 1) t dw (List.pairwise_cons.mp hpw).2 hge2 hmem2]
        apply List.map_congr_left
        intro u hu
        have hu1 := (List.mem_range'_1.mp hu).1
        rw [lookup_cons_ne (u : Int) ((upto : Nat) : Int) v t (by
          intro he
          have h3 : u = upto := by exact_mod_cast he
          omega)]
    · have hnot : (upto : Int) ∉ todo.map Prod.fst := fun h => hin ((hmem upto le_rfl).mpr h)
      have hhead : ((todo.lookup ((upto : Nat) : Int)).getD 0) = MISSING := by
        rw [lookup_eq_none_of_not_mem todo _ hnot]
        rfl
      rw [hhead]
      simp only [numericIterGo, if_neg hin]
      congr 1
      have hge2 : ∀ p ∈ todo, ((upto + 1 : Nat) : Int) ≤ p.1 := by
        intro p hp
        have h1 := hge p hp
        have h2 : p.1 ≠ ((upto : Nat) : Int) := fun he =>
          hnot (he ▸ List.mem_map_of_mem Prod.fst hp)
        push_cast
        omega
      have hmem2 : ∀ d : Int, ((upto + 1 : Nat) : Int) ≤ d →
          (d ∈ dw ↔ d ∈ todo.map Prod.fst) := by
        intro d hd
        push_cast at hd
        exact hmem d (by omega)
      exact ih (upto + 1) todo dw hpw hge2 hmem2

/-- C5: for every sequence of `add_value(doc_id, value)` calls with strictly
increasing doc ids starting above the initial `last_doc = -1` (the asserted
precondition), and docs below `max_doc`, the unsorted flush iterator yields
exactly `max_doc` values in doc-id order: the recorded value for each added
doc and the `MISSING` sentinel 0 for every doc in `[0, max_doc)` that was
not added. -/
theorem norm_values_flush_spec
    (adds : List (Int × Int)) (maxDoc : Nat)
    (hmono : List.Chain' (· < ·) (-1 :: adds.map Prod.fst))
    (hlt : ∀ p ∈ adds, p.1 < (maxDoc : Int)) :
    (adds.foldl (fun w p => w.addValue p.1 p.2) NormValuesWriter.new).flushUnsorted
        maxDoc
      = (List.range maxDoc).map (fun (d : Nat) => ((adds.lookup (d : Int)).getD 0)) := by
  unfold NormValuesWriter.flushUnsorted
  rw [foldl_addValue_pending adds NormValuesWriter.new,
    foldl_addValue_docs adds NormValuesWriter.new]
  simp only [NormValuesWriter.new, List.nil_append]
  have hpw : List.Pairwise (· < ·) ((-1 : Int) :: adds.map Prod.fst) :=
    List.chain'_iff_pairwise.mp hmono
  obtain ⟨hneg, hpw2⟩ := List.pairwise_cons.mp hpw
  rw [List.range_eq_range']
  exact numericIterGo_spec maxDoc 0 adds (adds.map Prod.fst) hpw2
    (fun p hp => by
      have h1 := hneg p.1 (List.mem_map_of_mem Prod.fst hp)
      omega)
    (fun d _ => Iff.rfl)

theorem norm_values_flush_spec_witness :
    (([((0 : Int), (7 : Int)), (2, 9)] : List (Int × Int)).foldl
        (fun w p => w.addValue p.1 p.2) NormValuesWriter.new).flushUnsorted 4
      = (List.range 4).map (fun (d : Nat) =>
          ((([((0 : Int), (7 : Int)), (2, 9)] : List (Int × Int)).lookup
            (d : Int)).getD 0)) ∧
    (([((0 : Int), (7 : Int)), (2, 9)] : List (Int × Int)).foldl
        (fun w p => w.addValue p.1 p.2) NormValuesWriter.new).flushUnsorted 4
      = [7, 0, 9, 0] :=
  ⟨norm_values_flush_spec [(0, 7), (2, 9)] 4
      (by norm_num [List.chain'_cons]) (by decide),
    by decide⟩

theorem sorted_find_gt_le (a d : Int) :
    ∀ l : List Int, List.Sorted (· < ·) l →
      l.find? (fun y => a < y) = some d →
      ∀ x ∈ l, a < x → d ≤ x := by
  intro l
  induction l with
  | nil => intro _ h; cases h
  | cons y t ih =>
    intro hs hf x hx hax
    by_cases hy : a < y
    · rw [List.find?_cons_of_pos t (by simpa using hy)] at hf
      injection hf with hf
      subst hf
      rcases List.mem_cons.mp hx with rfl | hx2
      · exact le_rfl
      · exact le_of_lt (List.rel_of_sorted_cons hs x hx2)
    · rw [List.find?_cons_of_neg t (by simpa using hy)] at hf
      rcases List.mem_cons.mp hx with rfl | hx2
      · exact absurd hax hy
      · exact ih (List.Sorted.of_cons hs) hf x hx2 hax

theorem nextCurVal_le (docs : List Int) (hs : List.Sorted (· < ·) docs)
    (a x : Int) (hx : x ∈ docs) (hax : a < x) : nextCurVal a docs ≤ x := by
  unfold nextCurVal
  cases hf : docs.find? (fun d => a < d) with
  | none =>
    exfalso
    have h2 := List.find?_eq_none.mp hf x hx
    simp only [decide_eq_true_eq] at h2
    omega
  | some d => exact sorted_find_gt_le a d docs hs hf x hx hax

theorem nextCurVal_mem (a : Int) (docs : List Int) :
    nextCurVal a docs = NO_MORE_DOCS ∨ nextCurVal a docs ∈ docs := by
  unfold nextCurVal
  cases hf : docs.find? (fun d => a < d) with
  | none => exact Or.inl rfl
  | some d => exact Or.inr (List.mem_of_find?_eq_some hf)

theorem next_valid (c : ChildScorer) (hv : c.Valid) : c.next.Valid := by
  obtain ⟨hs, hb, _⟩ := hv
  refine ⟨hs, hb, ?_⟩
  rcases nextCurVal_mem c.cur c.docs with h | h
  · exact Or.inr (Or.inl h)
  · exact Or.inr (Or.inr h)

theorem sqvalid_advanceStep (sq : SimpleQueue) (hv : SQValid sq) :
    SQValid sq.advanceStep := by
  obtain ⟨hne, hall⟩ := hv
  constructor
  · simp only [SimpleQueue.advanceStep, ne_eq, List.map_eq_nil_iff]
    exact hne
  · intro c hc
    simp only [SimpleQueue.advanceStep, List.mem_map] at hc
    obtain ⟨s, hs, rfl⟩ := hc
    by_cases h : s.cur = sq.currDoc
    · rw [if_pos h]
      exact next_valid s (hall s hs)
    · rw [if_neg h]
      exact hall s hs

theorem currDoc_ge_neg_one (sq : SimpleQueue) (hv : SQValid sq) :
    -1 ≤ sq.currDoc := by
  apply le_minCurFold ChildScorer.cur sq.scorers NO_MORE_DOCS (-1) (by decide)
  intro c hc
  rcases (hv.2 c hc).2.2 with h | h | h
  · omega
  · rw [h]; decide
  · have h0 := ((hv.2 c hc).2.1 c.cur h).1
    omega

theorem sqcoherent_advanceStep (sq : SimpleQueue) (hv : SQValid sq)
    (hc : SQCoherent sq) (hne : sq.currDoc ≠ NO_MORE_DOCS) :
    SQCoherent sq.advanceStep := by
  intro c2 hc2 x hx hge
  simp only [SimpleQueue.advanceStep, List.mem_map] at hc2
  obtain ⟨s, hs, rfl⟩ := hc2
  have hmin := minCurFold_le_mem ChildScorer.cur sq.scorers NO_MORE_DOCS s hs
  have hstep := SimpleQueue.currDoc_lt_advanceStep sq hne
  by_cases hcur : s.cur = sq.currDoc
  · rw [if_pos hcur] at hx ⊢
    have hx2 : x ∈ s.docs := hx
    show nextCurVal s.cur s.docs ≤ x
    exact nextCurVal_le s.docs ((hv.2 s hs).1) s.cur x hx2 (by omega)
  · rw [if_neg hcur] at hx ⊢
    exact hc s hs x hx (by omega)

theorem matchedBy_advanceStep (d : Int) (sq : SimpleQueue) :
    matchedBy d sq.advanceStep = matchedBy d sq := by
  unfold matchedBy SimpleQueue.advanceStep
  norm_cast
  rw [List.countP_map]
  apply List.countP_congr
  intro c _
  by_cases h : c.cur = sq.currDoc <;> simp [Function.comp, h, ChildScorer.next]

theorem cur_eq_currDoc_iff_mem (sq : SimpleQueue) (hv : SQValid sq)
    (hc : SQCoherent sq) (h0 : 0 ≤ sq.currDoc) (hne : sq.currDoc ≠ NO_MORE_DOCS) :
    ∀ c ∈ sq.scorers, (c.cur = sq.currDoc ↔ sq.currDoc ∈ c.docs) := by
  intro c hcm
  constructor
  · intro h
    rcases (hv.2 c hcm).2.2 with h1 | h1 | h1
    · exfalso; omega
    · rw [h] at h1
      exact absurd h1 hne
    · rwa [h] at h1
  · intro h
    have h1 := hc c hcm sq.currDoc h le_rfl
    have h2 := minCurFold_le_mem ChildScorer.cur sq.scorers NO_MORE_DOCS c hcm
    have e1 : sq.currDoc = minCurFold ChildScorer.cur sq.scorers NO_MORE_DOCS := rfl
    omega

theorem countMatched_eq_matchedBy (sq : SimpleQueue) (hv : SQValid sq)
    (hc : SQCoherent sq) (h0 : 0 ≤ sq.currDoc) (hne : sq.currDoc ≠ NO_MORE_DOCS) :
    sq.countMatchedInt = matchedBy sq.currDoc sq := by
  unfold SimpleQueue.countMatchedInt matchedBy
  norm_cast
  rw [← List.countP_eq_length_filter]
  apply List.countP_congr
  intro c hcm
  simpa using (cur_eq_currDoc_iff_mem sq hv hc h0 hne c hcm)

theorem advanceStep_no_skip (sq : SimpleQueue) (hv : SQValid sq)
    (hc : SQCoherent sq) (hne : sq.currDoc ≠ NO_MORE_DOCS) (d : Int)
    (h1 : sq.currDoc < d) (h2 : d < sq.advanceStep.currDoc) :
    matchedBy d sq = 0 := by
  unfold matchedBy
  norm_cast
  rw [List.countP_eq_zero]
  intro c hcm
  simp only [decide_eq_true_eq]
  intro hx
  have hcoh := hc c hcm d hx (le_of_lt h1)
  have hmin := minCurFold_le_mem ChildScorer.cur sq.scorers NO_MORE_DOCS c hcm
  have hmem2 : (if c.cur = sq.currDoc then c.next else c) ∈ sq.advanceStep.scorers := by
    simp only [SimpleQueue.advanceStep, List.mem_map]
    exact ⟨c, hcm, rfl⟩
  have hmin2 := minCurFold_le_mem ChildScorer.cur sq.advanceStep.scorers NO_MORE_DOCS
    _ hmem2
  have e1 : sq.currDoc = minCurFold ChildScorer.cur sq.scorers NO_MORE_DOCS := rfl
  have e2 : sq.advanceStep.currDoc
      = minCurFold ChildScorer.cur sq.advanceStep.scorers NO_MORE_DOCS := rfl
  by_cases hcur : c.cur = sq.currDoc
  · rw [if_pos hcur] at hmin2
    have hle : nextCurVal c.cur c.docs ≤ d :=
      nextCurVal_le c.docs ((hv.2 c hcm).1) c.cur d hx (by omega)
    have hnc : c.next.cur = nextCurVal c.cur c.docs := rfl
    omega
  · rw [if_neg hcur] at hmin2
    omega

theorem approxNext_eq_of_nmd (m : Int) (sq : SimpleQueue)
    (h : sq.currDoc = NO_MORE_DOCS) : SimpleQueue.approxNext m sq = sq := by
  unfold SimpleQueue.approxNext
  rw [if_pos h]

theorem approxNext_eq_of_loop (m : Int) (sq : SimpleQueue)
    (h1 : sq.currDoc ≠ NO_MORE_DOCS)
    (h2 : 1 < m ∧ sq.advanceStep.countMatchedInt < m) :
    SimpleQueue.approxNext m sq = SimpleQueue.approxNext m sq.advanceStep := by
  conv_lhs => rw [SimpleQueue.approxNext]
  rw [if_neg h1]
  show (if 1 < m ∧ sq.advanceStep.countMatchedInt < m then
      SimpleQueue.approxNext m sq.advanceStep else sq.advanceStep) = _
  rw [if_pos h2]

theorem approxNext_eq_of_exit (m : Int) (sq : SimpleQueue)
    (h1 : sq.currDoc ≠ NO_MORE_DOCS)
    (h2 : ¬ (1 < m ∧ sq.advanceStep.countMatchedInt < m)) :
    SimpleQueue.approxNext m sq = sq.advanceStep := by
  conv_lhs => rw [SimpleQueue.approxNext]
  rw [if_neg h1]
  show (if 1 < m ∧ sq.advanceStep.countMatchedInt < m then
      SimpleQueue.approxNext m sq.advanceStep else sq.advanceStep) = _
  rw [if_neg h2]

theorem approxNext_currDoc_mono (m : Int) : ∀ sq : SimpleQueue,
    sq.currDoc ≤ (SimpleQueue.approxNext m sq).currDoc := by
  intro sq
  induction sq using SimpleQueue.approxNext.induct m with
  | case1 x h =>
    rw [approxNext_eq_of_nmd m x h]
  | case2 x h1 sq1 h2 ih =>
    have h2b : 1 < m ∧ x.advanceStep.countMatchedInt < m := h2
    rw [approxNext_eq_of_loop m x h1 h2b]
    have hstep := SimpleQueue.currDoc_lt_advanceStep x h1
    have ih2 : x.advanceStep.currDoc
        ≤ (SimpleQueue.approxNext m x.advanceStep).currDoc := ih
    omega
  | case3 x h1 sq1 h2 =>
    have h2b : ¬ (1 < m ∧ x.advanceStep.countMatchedInt < m) := h2
    rw [approxNext_eq_of_exit m x h1 h2b]
    exact le_of_lt (SimpleQueue.currDoc_lt_advanceStep x h1)

theorem approxNext_currDoc_strict (m : Int) (sq : SimpleQueue)
    (h : sq.currDoc ≠ NO_MORE_DOCS) :
    sq.currDoc < (SimpleQueue.approxNext m sq).currDoc := by
  by_cases h2 : 1 < m ∧ sq.advanceStep.countMatchedInt < m
  · rw [approxNext_eq_of_loop m sq h h2]
    have hstep := SimpleQueue.currDoc_lt_advanceStep sq h
    have hmono := approxNext_currDoc_mono m sq.advanceStep
    omega
  · rw [approxNext_eq_of_exit m sq h h2]
    exact SimpleQueue.currDoc_lt_advanceStep sq h

theorem approxNext_iterate_reaches (m : Int) :
    ∀ (n : Nat) (sq : SimpleQueue), (NO_MORE_DOCS - sq.currDoc).toNat ≤ n →
      ∃ kk : Nat,
        (Nat.iterate (SimpleQueue.approxNext m) kk sq).currDoc = NO_MORE_DOCS := by
  intro n
  induction n with
  | zero =>
    intro sq hb
    refine ⟨0, ?_⟩
    have h1 := SimpleQueue.currDoc_le_nmd sq
    show sq.currDoc = NO_MORE_DOCS
    omega
  | succ n ih =>
    intro sq hb
    by_cases h : sq.currDoc = NO_MORE_DOCS
    · exact ⟨0, h⟩
    · have hs := approxNext_currDoc_strict m sq h
      have h1 := SimpleQueue.currDoc_le_nmd (SimpleQueue.approxNext m sq)
      obtain ⟨kk, hk⟩ := ih (SimpleQueue.approxNext m sq) (by omega)
      refine ⟨kk + 1, ?_⟩
      rw [Function.iterate_succ_apply]
      exact hk

theorem approxNext_master (m : Int) : ∀ sq : SimpleQueue,
    SQValid sq → SQCoherent sq →
      SQValid (SimpleQueue.approxNext m sq) ∧
      SQCoherent (SimpleQueue.approxNext m sq) ∧
      ((SimpleQueue.approxNext m sq).currDoc = NO_MORE_DOCS ∨
        (1 ≤ matchedBy (SimpleQueue.approxNext m sq).currDoc sq ∧
          (1 < m → m ≤ matchedBy (SimpleQueue.approxNext m sq).currDoc sq))) ∧
      (∀ d, sq.currDoc < d → d < (SimpleQueue.approxNext m sq).currDoc →
        matchedBy d sq < max 1 m) := by
  intro sq
  induction sq using SimpleQueue.approxNext.induct m with
  | case1 x h =>
    intro hv hc
    rw [approxNext_eq_of_nmd m x h]
    refine ⟨hv, hc, Or.inl h, ?_⟩
    intro d hd1 hd2
    exfalso
    omega
  | case2 x h1 sq1 h2 ih =>
    intro hv hc
    have hcond : 1 < m ∧ x.advanceStep.countMatchedInt < m := h2
    rw [approxNext_eq_of_loop m x h1 hcond]
    have hv1 := sqvalid_advanceStep x hv
    have hc1 := sqcoherent_advanceStep x hv hc h1
    obtain ⟨mv, mc, msound, mcomp⟩ := ih hv1 hc1
    have hstep := SimpleQueue.currDoc_lt_advanceStep x h1
    have hneg1 := currDoc_ge_neg_one x hv
    refine ⟨mv, mc, ?_, ?_⟩
    · rcases msound with h | ⟨ha, hb⟩
      · exact Or.inl h
      · rw [matchedBy_advanceStep] at ha hb
        exact Or.inr ⟨ha, hb⟩
    · intro d hd1 hd2
      by_cases hlt : d < x.advanceStep.currDoc
      · have h0 := advanceStep_no_skip x hv hc h1 d hd1 hlt
        rw [h0]
        exact lt_of_lt_of_le (by norm_num) (le_max_left 1 m)
      · by_cases heq : d = x.advanceStep.currDoc
        · have h0le : (0 : Int) ≤ x.advanceStep.currDoc := by omega
          have hfin := SimpleQueue.currDoc_le_nmd
            (SimpleQueue.approxNext m x.advanceStep)
          have hne1 : x.advanceStep.currDoc ≠ NO_MORE_DOCS := by omega
          have hcount := countMatched_eq_matchedBy x.advanceStep hv1 hc1 h0le hne1
          have hlt2 := hcond.2
          rw [hcount, matchedBy_advanceStep] at hlt2
          rw [heq]
          exact lt_of_lt_of_le hlt2 (le_max_right 1 m)
        · have hgt : x.advanceStep.currDoc < d := by omega
          have hres := mcomp d hgt hd2
          rwa [matchedBy_advanceStep] at hres
  | case3 x h1 sq1 h2 =>
    intro hv hc
    have hcond : ¬ (1 < m ∧ x.advanceStep.countMatchedInt < m) := h2
    rw [approxNext_eq_of_exit m x h1 hcond]
    have hv1 := sqvalid_advanceStep x hv
    have hc1 := sqcoherent_advanceStep x hv hc h1
    have hstep := SimpleQueue.currDoc_lt_advanceStep x h1
    have hneg1 := currDoc_ge_neg_one x hv
    refine ⟨hv1, hc1, ?_, ?_⟩
    · by_cases hnmd : x.advanceStep.currDoc = NO_MORE_DOCS
      · exact Or.inl hnmd
      · right
        have h0le : (0 : Int) ≤ x.advanceStep.currDoc := by omega
        have hcount := countMatched_eq_matchedBy x.advanceStep hv1 hc1 h0le hnmd
        constructor
        · obtain ⟨c, hcm, hcc⟩ :
              ∃ c ∈ x.advanceStep.scorers, c.cur = x.advanceStep.currDoc := by
            rcases minCurFold_attained ChildScorer.cur x.advanceStep.scorers
              NO_MORE_DOCS with h | ⟨s, hs, h⟩
            · exact absurd h hnmd
            · exact ⟨s, hs, h.symm⟩
          have hmem := (cur_eq_currDoc_iff_mem x.advanceStep hv1 hc1 h0le hnmd
            c hcm).mp hcc
          have hpos : 0 < (x.advanceStep.scorers.countP
              (fun s => decide (x.advanceStep.currDoc ∈ s.docs))) :=
            List.countP_pos_iff.mpr ⟨c, hcm, by simpa using hmem⟩
          rw [← matchedBy_advanceStep]
          unfold matchedBy
          omega
        · intro hm
          have hcnt : m ≤ x.advanceStep.countMatchedInt := by
            by_contra hcon
            exact hcond ⟨hm, by omega⟩
          rw [hcount, matchedBy_advanceStep] at hcnt
          exact hcnt
    · intro d hd1 hd2
      have h0 := advanceStep_no_skip x hv hc h1 d hd1 hd2
      rw [h0]
      exact lt_of_lt_of_le (by norm_num) (le_max_left 1 m)

/-- C1 counterexample: over the valid, coherent queue with children matching
{5} and {3} and `min_should_match = 2` (so the `SimpleQueue` branch is
chosen), `advance(3)` (`DisjunctionSumScorer::advance`, lines 75-77 and
350-364, which performs no `min_should_match` check) leaves the scorer
positioned on doc 3, which is matched by only 1 < 2 of the children —
refuting the claim that `advance(target)` never leaves the scorer on a doc
matched by fewer than `min_should_match` children. -/
theorem disjunction_sum_advance_min_should_match_cex :
    SQValid advanceCexQueue ∧ SQCoherent advanceCexQueue ∧
    (disjunctionSumAdvance 3 advanceCexQueue).currDoc = 3 ∧
    matchedBy (disjunctionSumAdvance 3 advanceCexQueue).currDoc advanceCexQueue = 1 ∧
    (1 : Int) < 2 := by
  decide

theorem advanceFirstAt_count (d : Int) (hd : d < NO_MORE_DOCS) :
    ∀ l : List ChildScorer, (∃ c ∈ l, c.cur = d) →
      (advanceFirstAt d l).countP (fun c => c.cur = d) + 1
        = l.countP (fun c => c.cur = d) := by
  intro l
  induction l with
  | nil => rintro ⟨c, hcm, _⟩; cases hcm
  | cons s t ih =>
    rintro ⟨c, hcm, hcd⟩
    by_cases h : s.cur = d
    · simp only [advanceFirstAt, if_pos h]
      have hnext : ¬ (s.next.cur = d) := by
        have hval : s.next.cur = nextCurVal s.cur s.docs := rfl
        have hgt := nextCurVal_gt s.cur s.docs (by omega)
        omega
      simp [List.countP_cons, h, hnext]
    · simp only [advanceFirstAt, if_neg h]
      rcases List.mem_cons.mp hcm with rfl | hcm2
      · exact absurd hcd h
      · have hrec := ih ⟨c, hcm2, hcd⟩
        simp only [List.countP_cons, if_neg (by simpa using h)]
        omega

theorem advanceFirstAt_lb (d : Int) (hd : d < NO_MORE_DOCS) :
    ∀ l : List ChildScorer, (∀ c ∈ l, d ≤ c.cur) →
      ∀ c ∈ advanceFirstAt d l, d ≤ c.cur := by
  intro l
  induction l with
  | nil => intro _ c hm; cases hm
  | cons s t ih =>
    intro hl c hm
    by_cases h : s.cur = d
    · rw [advanceFirstAt, if_pos h] at hm
      rcases List.mem_cons.mp hm with rfl | hm2
      · have hval : s.next.cur = nextCurVal s.cur s.docs := rfl
        have hgt := nextCurVal_gt s.cur s.docs (by omega)
        omega
      · exact hl c (List.mem_cons_of_mem s hm2)
    · rw [advanceFirstAt, if_neg h] at hm
      rcases List.mem_cons.mp hm with rfl | hm2
      · exact hl c (List.mem_cons_self c t)
      · exact ih (fun c2 hc2 => hl c2 (List.mem_cons_of_mem s hc2)) c hm2

theorem dpqLoop_exits :
    ∀ (fuel : Nat) (q : DisiPriorityQueue) (doc : Int),
      doc < NO_MORE_DOCS →
      (∀ c ∈ q.scorers, doc ≤ c.cur) →
      q.peekDoc = doc →
      q.scorers.countP (fun c => c.cur = doc) < fuel →
      ∃ q2, dpqNextLoop fuel doc q = some q2 ∧ doc < q2.peekDoc := by
  intro fuel
  induction fuel with
  | zero => intro q doc _ _ _ hcnt; omega
  | succ fuel ih =>
    intro q doc hd hlb hpeek hcnt
    have hat : ∃ c ∈ q.scorers, c.cur = doc := by
      rcases minCurFold_attained ChildScorer.cur q.scorers NO_MORE_DOCS with h | ⟨s, hs, h⟩
      · exfalso
        have : q.peekDoc = NO_MORE_DOCS := h
        omega
      · exact ⟨s, hs, by rw [← hpeek]; exact h.symm⟩
    have hstep : (q.advanceTop).scorers = advanceFirstAt doc q.scorers := by
      show advanceFirstAt q.peekDoc q.scorers = advanceFirstAt doc q.scorers
      rw [hpeek]
    have hlb2 : ∀ c ∈ (q.advanceTop).scorers, doc ≤ c.cur := by
      rw [hstep]
      exact advanceFirstAt_lb doc hd q.scorers hlb
    have hcnt2 : ((q.advanceTop).scorers.countP (fun c => c.cur = doc)) + 1
        = q.scorers.countP (fun c => c.cur = doc) := by
      rw [hstep]
      exact advanceFirstAt_count doc hd q.scorers hat
    have hge2 : doc ≤ (q.advanceTop).peekDoc :=
      le_minCurFold ChildScorer.cur (q.advanceTop).scorers NO_MORE_DOCS doc
        (by omega) hlb2
    by_cases hexit : (q.advanceTop).peekDoc = doc
    · obtain ⟨q2, hq2, hgt⟩ := ih (q.advanceTop) doc hd hlb2 hexit (by omega)
      refine ⟨q2, ?_, hgt⟩
      show dpqNextLoop (fuel + 1) doc q = some q2
      simp only [dpqNextLoop]
      rw [if_neg (not_not_intro hexit)]
      exact hq2
    · refine ⟨q.advanceTop, ?_, lt_of_le_of_ne hge2 (Ne.symm hexit)⟩
      show dpqNextLoop (fuel + 1) doc q = some q.advanceTop
      simp only [dpqNextLoop]
      rw [if_pos hexit]

theorem dpq_approxNext_total (q : DisiPriorityQueue)
    (h : q.peekDoc ≠ NO_MORE_DOCS) :
    ∃ q2, DisiPriorityQueue.approxNext q = some q2 ∧ q.peekDoc < q2.peekDoc := by
  have hlt : q.peekDoc < NO_MORE_DOCS :=
    lt_of_le_of_ne (minCurFold_le_init ChildScorer.cur q.scorers NO_MORE_DOCS) h
  have hb : ∀ c ∈ q.scorers, q.peekDoc ≤ c.cur := fun c hc =>
    minCurFold_le_mem ChildScorer.cur q.scorers NO_MORE_DOCS c hc
  have hcnt : q.scorers.countP (fun c => c.cur = q.peekDoc) < q.scorers.length + 1 :=
    Nat.lt_succ_of_le (List.countP_le_length _)
  exact dpqLoop_exits (q.scorers.length + 1) q q.peekDoc hlt hb rfl hcnt

theorem advanceFirstAt_length (d : Int) :
    ∀ l : List ChildScorer, (advanceFirstAt d l).length = l.length := by
  intro l
  induction l with
  | nil => rfl
  | cons s t ih =>
    by_cases h : s.cur = d
    · simp [advanceFirstAt, if_pos h]
    · simp [advanceFirstAt, if_neg h, ih]

theorem advanceFirstAt_valid (d : Int) :
    ∀ l : List ChildScorer, (∀ c ∈ l, ChildScorer.Valid c) →
      ∀ c ∈ advanceFirstAt d l, ChildScorer.Valid c := by
  intro l
  induction l with
  | nil => intro _ c hm; cases hm
  | cons s t ih =>
    intro hl c hm
    by_cases h : s.cur = d
    · rw [advanceFirstAt, if_pos h] at hm
      rcases List.mem_cons.mp hm with rfl | hm2
      · exact next_valid s (hl s (List.mem_cons_self s t))
      · exact hl c (List.mem_cons_of_mem s hm2)
    · rw [advanceFirstAt, if_neg h] at hm
      rcases List.mem_cons.mp hm with rfl | hm2
      · exact hl c (List.mem_cons_self c t)
      · exact ih (fun c2 hc2 => hl c2 (List.mem_cons_of_mem s hc2)) c hm2

theorem advanceFirstAt_countP_docs (d doc : Int) :
    ∀ l : List ChildScorer,
      (advanceFirstAt doc l).countP (fun c => d ∈ c.docs)
        = l.countP (fun c => d ∈ c.docs) := by
  intro l
  induction l with
  | nil => rfl
  | cons s t ih =>
    by_cases h : s.cur = doc
    · simp only [advanceFirstAt, if_pos h, List.countP_cons]
      have hd2 : s.next.docs = s.docs := rfl
      rw [hd2]
    · simp only [advanceFirstAt, if_neg h, List.countP_cons, ih]

theorem advanceFirstAt_cohD (doc : Int) :
    ∀ l : List ChildScorer, (∀ c ∈ l, ChildScorer.Valid c) →
      (∀ c ∈ l, ∀ x ∈ c.docs, doc < x → c.cur ≤ x) →
      ∀ c ∈ advanceFirstAt doc l, ∀ x ∈ c.docs, doc < x → c.cur ≤ x := by
  intro l
  induction l with
  | nil => intro _ _ c hm; cases hm
  | cons s t ih =>
    intro hv hl c hm x hx hdx
    by_cases h : s.cur = doc
    · rw [advanceFirstAt, if_pos h] at hm
      rcases List.mem_cons.mp hm with rfl | hm2
      · have hx2 : x ∈ s.docs := hx
        show nextCurVal s.cur s.docs ≤ x
        exact nextCurVal_le s.docs (hv s (List.mem_cons_self s t)).1 s.cur x hx2
          (by omega)
      · exact hl c (List.mem_cons_of_mem s hm2) x hx hdx
    · rw [advanceFirstAt, if_neg h] at hm
      rcases List.mem_cons.mp hm with rfl | hm2
      · exact hl c (List.mem_cons_self c t) x hx hdx
      · exact ih (fun c2 hc2 => hv c2 (List.mem_cons_of_mem s hc2))
          (fun c2 hc2 => hl c2 (List.mem_cons_of_mem s hc2)) c hm2 x hx hdx

theorem dpq_peekDoc_ge_neg_one (q : DisiPriorityQueue)
    (hv : ∀ c ∈ q.scorers, ChildScorer.Valid c) : -1 ≤ q.peekDoc := by
  apply le_minCurFold ChildScorer.cur q.scorers NO_MORE_DOCS (-1) (by decide)
  intro c hc
  rcases (hv c hc).2.2 with h | h | h
  · omega
  · rw [h]; decide
  · have h0 := ((hv c hc).2.1 c.cur h).1
    omega

theorem dpqLoop_master :
    ∀ (fuel : Nat) (doc : Int) (q q2 : DisiPriorityQueue),
      dpqNextLoop fuel doc q = some q2 →
      doc < NO_MORE_DOCS →
      q.peekDoc = doc →
      (∀ c ∈ q.scorers, ChildScorer.Valid c) →
      (∀ c ∈ q.scorers, doc ≤ c.cur) →
      (∀ c ∈ q.scorers, ∀ x ∈ c.docs, doc < x → c.cur ≤ x) →
      ((∀ c ∈ q2.scorers, ChildScorer.Valid c) ∧
        q2.scorers.length = q.scorers.length ∧
        (∀ c ∈ q2.scorers, ∀ x ∈ c.docs, doc < x → c.cur ≤ x) ∧
        doc < q2.peekDoc ∧
        (∀ d, q2.scorers.countP (fun c => d ∈ c.docs)
            = q.scorers.countP (fun c => d ∈ c.docs))) := by
  intro fuel
  induction fuel with
  | zero =>
    intro doc q q2 hsome _ _ _ _ _
    exact Option.noConfusion hsome
  | succ fuel ih =>
    intro doc q q2 hsome hd hpeek hval hlb hcoh
    have hstep : (q.advanceTop).scorers = advanceFirstAt doc q.scorers := by
      show advanceFirstAt q.peekDoc q.scorers = advanceFirstAt doc q.scorers
      rw [hpeek]
    have hval1 : ∀ c ∈ (q.advanceTop).scorers, ChildScorer.Valid c := by
      rw [hstep]; exact advanceFirstAt_valid doc q.scorers hval
    have hlb1 : ∀ c ∈ (q.advanceTop).scorers, doc ≤ c.cur := by
      rw [hstep]; exact advanceFirstAt_lb doc hd q.scorers hlb
    have hcoh1 : ∀ c ∈ (q.advanceTop).scorers, ∀ x ∈ c.docs, doc < x → c.cur ≤ x := by
      rw [hstep]; exact advanceFirstAt_cohD doc q.scorers hval hcoh
    have hlen1 : (q.advanceTop).scorers.length = q.scorers.length := by
      rw [hstep]; exact advanceFirstAt_length doc q.scorers
    have hcnt1 : ∀ d, (q.advanceTop).scorers.countP (fun c => d ∈ c.docs)
        = q.scorers.countP (fun c => d ∈ c.docs) := by
      intro d; rw [hstep]; exact advanceFirstAt_countP_docs d doc q.scorers
    have hge1 : doc ≤ (q.advanceTop).peekDoc :=
      le_minCurFold ChildScorer.cur (q.advanceTop).scorers NO_MORE_DOCS doc
        (by omega) hlb1
    by_cases hexit : (q.advanceTop).peekDoc = doc
    · have hrec : dpqNextLoop fuel doc q.advanceTop = some q2 := by
        have h2 : dpqNextLoop (fuel + 1) doc q = some q2 := hsome
        simp only [dpqNextLoop] at h2
        rw [if_neg (not_not_intro hexit)] at h2
        exact h2
      obtain ⟨a1, a2, a3, a4, a5⟩ := ih doc q.advanceTop q2 hrec hd hexit hval1 hlb1 hcoh1
      exact ⟨a1, a2.trans hlen1, a3, a4, fun d => (a5 d).trans (hcnt1 d)⟩
    · have h2 : dpqNextLoop (fuel + 1) doc q = some q2 := hsome
      simp only [dpqNextLoop] at h2
      rw [if_pos hexit] at h2
      injection h2 with h2
      subst h2
      exact ⟨hval1, hlen1, hcoh1, lt_of_le_of_ne hge1 (Ne.symm hexit), hcnt1⟩

theorem dpq_approxNext_master (q : DisiPriorityQueue)
    (hv : DPQValid q) (hc : DPQCoherent q) (hne : q.peekDoc ≠ NO_MORE_DOCS) :
    ∃ q2, DisiPriorityQueue.approxNext q = some q2 ∧
      DPQValid q2 ∧ DPQCoherent q2 ∧ q.peekDoc < q2.peekDoc ∧
      (q2.peekDoc = NO_MORE_DOCS ∨ 1 ≤ dpqMatchedBy q2.peekDoc q) ∧
      (∀ d, q.peekDoc < d → d < q2.peekDoc → dpqMatchedBy d q = 0) := by
  obtain ⟨q2, hsome, hlt⟩ := dpq_approxNext_total q hne
  have hdlt : q.peekDoc < NO_MORE_DOCS :=
    lt_of_le_of_ne (minCurFold_le_init ChildScorer.cur q.scorers NO_MORE_DOCS) hne
  have hlb : ∀ c ∈ q.scorers, q.peekDoc ≤ c.cur := fun c hc2 =>
    minCurFold_le_mem ChildScorer.cur q.scorers NO_MORE_DOCS c hc2
  have hcohD : ∀ c ∈ q.scorers, ∀ x ∈ c.docs, q.peekDoc < x → c.cur ≤ x :=
    fun c hc2 x hx hdx => hc c hc2 x hx (le_of_lt hdx)
  obtain ⟨hval2, hlen2, hcoh2, hgt2, hcnt2⟩ :=
    dpqLoop_master (q.scorers.length + 1) q.peekDoc q q2 hsome hdlt rfl hv.2 hlb hcohD
  have hne2 : q2.scorers ≠ [] := by
    intro h0
    rw [h0, List.length_nil] at hlen2
    exact hv.1 (List.length_eq_zero.mp hlen2.symm)
  have hgeneg : -1 ≤ q.peekDoc := dpq_peekDoc_ge_neg_one q hv.2
  refine ⟨q2, hsome, ⟨hne2, hval2⟩, ?_, hlt, ?_, ?_⟩
  · intro c hc2 x hx hge
    exact hcoh2 c hc2 x hx (by omega)
  · by_cases hnmd : q2.peekDoc = NO_MORE_DOCS
    · exact Or.inl hnmd
    · right
      obtain ⟨c, hcm, hcc⟩ : ∃ c ∈ q2.scorers, q2.peekDoc = c.cur := by
        rcases minCurFold_attained ChildScorer.cur q2.scorers NO_MORE_DOCS with
          h | ⟨s, hs, h⟩
        · exact absurd h hnmd
        · exact ⟨s, hs, h⟩
      have hcv := hval2 c hcm
      have hmem : q2.peekDoc ∈ c.docs := by
        rcases hcv.2.2 with h1 | h1 | h1
        · exfalso; omega
        · exfalso; apply hnmd; rw [hcc, h1]
        · rwa [hcc]
      have hpos : 0 < q2.scorers.countP (fun c2 => q2.peekDoc ∈ c2.docs) :=
        List.countP_pos_iff.mpr ⟨c, hcm, by simpa using hmem⟩
      unfold dpqMatchedBy
      rw [← hcnt2 q2.peekDoc]
      omega
  · intro d hd1 hd2
    have hz : q2.scorers.countP (fun c => d ∈ c.docs) = 0 := by
      rw [List.countP_eq_zero]
      intro c hcm
      simp only [decide_eq_true_eq]
      intro hx
      have h1 := hcoh2 c hcm d hx hd1
      have h2 := minCurFold_le_mem ChildScorer.cur q2.scorers NO_MORE_DOCS c hcm
      have e1 : q2.peekDoc = minCurFold ChildScorer.cur q2.scorers NO_MORE_DOCS := rfl
      omega
    unfold dpqMatchedBy
    rw [← hcnt2 d, hz]
    rfl

/-- C1 (amended): for a `DisjunctionSumScorer` over valid, coherent,
non-empty children with `min_should_match = k >= 1`, `next()`
(= `approximate_next`) enumerates exactly the docs matched by at least `k`
children, in both branches. `SimpleQueue` branch (fewer than 10 children or
`k > 1`): the doc it stops on is `NO_MORE_DOCS` or matched by at least `k`
children, no doc strictly between the old and the new position is matched by
`k` or more children, and validity, coherence and strict progress are
preserved. `DisiPriorityQueue` branch (at least 10 children and `k = 1`),
called while the current doc is below `NO_MORE_DOCS` (required: see the C3
divergence counterexample): likewise with `k = 1`. (`advance(target)` does
not enforce the `min_should_match` constraint; see the counterexample.) -/
theorem disjunction_sum_next_min_should_match (k : Int) (sq : SimpleQueue)
    (q : DisiPriorityQueue) (hv : SQValid sq) (hc : SQCoherent sq) (hk : 1 ≤ k)
    (hqv : DPQValid q) (hqc : DPQCoherent q) :
    (((disjunctionSumApproxNext k sq).currDoc = NO_MORE_DOCS ∨
      k ≤ matchedBy (disjunctionSumApproxNext k sq).currDoc sq) ∧
    (∀ d, sq.currDoc < d → d < (disjunctionSumApproxNext k sq).currDoc →
      matchedBy d sq < k) ∧
    SQValid (disjunctionSumApproxNext k sq) ∧
    SQCoherent (disjunctionSumApproxNext k sq) ∧
    (sq.currDoc ≠ NO_MORE_DOCS →
      sq.currDoc < (disjunctionSumApproxNext k sq).currDoc)) ∧
    (k = 1 → q.peekDoc ≠ NO_MORE_DOCS →
      ∃ q2, DisiPriorityQueue.approxNext q = some q2 ∧
        (q2.peekDoc = NO_MORE_DOCS ∨ k ≤ dpqMatchedBy q2.peekDoc q) ∧
        (∀ d, q.peekDoc < d → d < q2.peekDoc → dpqMatchedBy d q < k) ∧
        DPQValid q2 ∧ DPQCoherent q2 ∧ q.peekDoc < q2.peekDoc) := by
  constructor
  · unfold disjunctionSumApproxNext
    by_cases hk2 : 1 < k
    · rw [if_pos hk2]
      obtain ⟨mv, mc, msound, mcomp⟩ := approxNext_master k sq hv hc
      refine ⟨?_, ?_, mv, mc, fun h => approxNext_currDoc_strict k sq h⟩
      · rcases msound with h | ⟨_, hb⟩
        · exact Or.inl h
        · exact Or.inr (hb hk2)
      · intro d h1 h2
        have hres := mcomp d h1 h2
        have hmax : max 1 k = k := max_eq_right (by omega)
        rwa [hmax] at hres
    · rw [if_neg hk2]
      have hk1 : k = 1 := by omega
      subst hk1
      obtain ⟨mv, mc, msound, mcomp⟩ := approxNext_master 1 sq hv hc
      refine ⟨?_, ?_, mv, mc, fun h => approxNext_currDoc_strict 1 sq h⟩
      · rcases msound with h | ⟨ha, _⟩
        · exact Or.inl h
        · exact Or.inr ha
      · intro d h1 h2
        have hres := mcomp d h1 h2
        simpa using hres
  · rintro rfl hne
    obtain ⟨q2, hsome, hv2, hc2, hlt2, hsound, hcomp⟩ := dpq_approxNext_master q hqv hqc hne
    refine ⟨q2, hsome, hsound, ?_, hv2, hc2, hlt2⟩
    intro d h1 h2
    have h3 := hcomp d h1 h2
    omega

theorem disjunction_sum_next_min_should_match_witness :
    (((disjunctionSumApproxNext 2 ⟨[⟨[1, 4], -1⟩, ⟨[2, 4], -1⟩, ⟨[9], -1⟩]⟩).currDoc
        = NO_MORE_DOCS ∨
      2 ≤ matchedBy
        (disjunctionSumApproxNext 2 ⟨[⟨[1, 4], -1⟩, ⟨[2, 4], -1⟩, ⟨[9], -1⟩]⟩).currDoc
        ⟨[⟨[1, 4], -1⟩, ⟨[2, 4], -1⟩, ⟨[9], -1⟩]⟩) ∧
    (∀ d, (⟨[⟨[1, 4], -1⟩, ⟨[2, 4], -1⟩, ⟨[9], -1⟩]⟩ : SimpleQueue).currDoc < d →
      d < (disjunctionSumApproxNext 2 ⟨[⟨[1, 4], -1⟩, ⟨[2, 4], -1⟩, ⟨[9], -1⟩]⟩).currDoc →
      matchedBy d ⟨[⟨[1, 4], -1⟩, ⟨[2, 4], -1⟩, ⟨[9], -1⟩]⟩ < 2) ∧
    SQValid (disjunctionSumApproxNext 2 ⟨[⟨[1, 4], -1⟩, ⟨[2, 4], -1⟩, ⟨[9], -1⟩]⟩) ∧
    SQCoherent (disjunctionSumApproxNext 2 ⟨[⟨[1, 4], -1⟩, ⟨[2, 4], -1⟩, ⟨[9], -1⟩]⟩) ∧
    ((⟨[⟨[1, 4], -1⟩, ⟨[2, 4], -1⟩, ⟨[9], -1⟩]⟩ : SimpleQueue).currDoc ≠ NO_MORE_DOCS →
      (⟨[⟨[1, 4], -1⟩, ⟨[2, 4], -1⟩, ⟨[9], -1⟩]⟩ : SimpleQueue).currDoc
        < (disjunctionSumApproxNext 2 ⟨[⟨[1, 4], -1⟩, ⟨[2, 4], -1⟩, ⟨[9], -1⟩]⟩).currDoc)) ∧
    (∃ q2, DisiPriorityQueue.approxNext ⟨[⟨[1, 4], -1⟩, ⟨[2, 4], -1⟩]⟩ = some q2 ∧
      (q2.peekDoc = NO_MORE_DOCS ∨
        1 ≤ dpqMatchedBy q2.peekDoc ⟨[⟨[1, 4], -1⟩, ⟨[2, 4], -1⟩]⟩) ∧
      (∀ d, (⟨[⟨[1, 4], -1⟩, ⟨[2, 4], -1⟩]⟩ : DisiPriorityQueue).peekDoc < d →
        d < q2.peekDoc → dpqMatchedBy d ⟨[⟨[1, 4], -1⟩, ⟨[2, 4], -1⟩]⟩ < 1) ∧
      DPQValid q2 ∧ DPQCoherent q2 ∧
      (⟨[⟨[1, 4], -1⟩, ⟨[2, 4], -1⟩]⟩ : DisiPriorityQueue).peekDoc < q2.peekDoc) := by
  have h1 := disjunction_sum_next_min_should_match 2
    ⟨[⟨[1, 4], -1⟩, ⟨[2, 4], -1⟩, ⟨[9], -1⟩]⟩ ⟨[⟨[1, 4], -1⟩, ⟨[2, 4], -1⟩]⟩
    (by decide) (by decide) (by decide) (by decide) (by decide)
  have h2 := disjunction_sum_next_min_should_match 1
    ⟨[⟨[1, 4], -1⟩, ⟨[2, 4], -1⟩, ⟨[9], -1⟩]⟩ ⟨[⟨[1, 4], -1⟩, ⟨[2, 4], -1⟩]⟩
    (by decide) (by decide) (by decide) (by decide) (by decide)
  exact ⟨h1.1, h2.2 rfl (by decide)⟩


/-- C3 (amended): for disjunction scorers over canonical children (each
obeying the doc-iterator contract), `next()` strictly increases the current
doc while below `NO_MORE_DOCS` and reaches `NO_MORE_DOCS` after finitely
many calls. In the `SimpleQueue` branch (sum or max, fewer than 10 children
or `min_should_match > 1`), `next()` at `NO_MORE_DOCS` returns
`NO_MORE_DOCS` and leaves the queue unchanged. In the `DisiPriorityQueue`
branch the advance loop terminates (with any fuel above the child count)
whenever the top doc is below `NO_MORE_DOCS` and yields a strictly larger
doc — but not at `NO_MORE_DOCS`; see the counterexample. -/
theorem disjunction_next_strictly_increasing (m : Int) (sq : SimpleQueue)
    (q : DisiPriorityQueue) :
    (sq.currDoc ≠ NO_MORE_DOCS →
      sq.currDoc < (SimpleQueue.approxNext m sq).currDoc) ∧
    (sq.currDoc = NO_MORE_DOCS → SimpleQueue.approxNext m sq = sq) ∧
    (∃ n : Nat,
      (Nat.iterate (SimpleQueue.approxNext m) n sq).currDoc = NO_MORE_DOCS) ∧
    (q.peekDoc ≠ NO_MORE_DOCS →
      ∃ q2, DisiPriorityQueue.approxNext q = some q2 ∧ q.peekDoc < q2.peekDoc) := by
  refine ⟨fun h => approxNext_currDoc_strict m sq h,
    fun h => approxNext_eq_of_nmd m sq h, ?_,
    fun h => dpq_approxNext_total q h⟩
  exact approxNext_iterate_reaches m ((NO_MORE_DOCS - sq.currDoc).toNat) sq le_rfl

theorem disjunction_next_strictly_increasing_witness :
    ((⟨[⟨[0], -1⟩]⟩ : SimpleQueue).currDoc ≠ NO_MORE_DOCS ∧
      (⟨[⟨[0], -1⟩]⟩ : SimpleQueue).currDoc
        < (SimpleQueue.approxNext 1 ⟨[⟨[0], -1⟩]⟩).currDoc) ∧
    ((⟨[⟨[0], NO_MORE_DOCS⟩]⟩ : SimpleQueue).currDoc = NO_MORE_DOCS ∧
      SimpleQueue.approxNext 1 ⟨[⟨[0], NO_MORE_DOCS⟩]⟩ = ⟨[⟨[0], NO_MORE_DOCS⟩]⟩) ∧
    (∃ n : Nat,
      (Nat.iterate (SimpleQueue.approxNext 1) n ⟨[⟨[0], -1⟩]⟩).currDoc
        = NO_MORE_DOCS) ∧
    ((⟨[⟨[0], -1⟩]⟩ : DisiPriorityQueue).peekDoc ≠ NO_MORE_DOCS ∧
      ∃ q2, DisiPriorityQueue.approxNext ⟨[⟨[0], -1⟩]⟩ = some q2 ∧
        (⟨[⟨[0], -1⟩]⟩ : DisiPriorityQueue).peekDoc < q2.peekDoc) := by
  have h1 := disjunction_next_strictly_increasing 1 ⟨[⟨[0], -1⟩]⟩ ⟨[⟨[0], -1⟩]⟩
  have h2 := disjunction_next_strictly_increasing 1 ⟨[⟨[0], NO_MORE_DOCS⟩]⟩
    ⟨[⟨[0], -1⟩]⟩
  exact ⟨⟨by decide, h1.1 (by decide)⟩, ⟨by decide, h2.2.1 (by decide)⟩,
    h1.2.2.1, by decide, h1.2.2.2 (by decide)⟩

/-- C3 counterexample: ten children (enough for the constructors to pick the
`DisiPriorityQueue` branch), each valid and exhausted at `NO_MORE_DOCS`.
The source loop of `SubScorers::approximate_next` (DPQ branch, lines
336-345) advances the top child — which stays at `NO_MORE_DOCS` — and
retries while `peek().doc() == doc`; modelled with fuel, it returns `none`
for every fuel, i.e. calling `next()` once `doc_id() == NO_MORE_DOCS` never
returns (so it does not return `NO_MORE_DOCS` as the claim states). -/
theorem dpq_next_at_end_diverges :
    dpqAtEnd.peekDoc = NO_MORE_DOCS ∧
    dpqAtEnd.scorers.length = 10 ∧
    (∀ c ∈ dpqAtEnd.scorers, ChildScorer.Valid c) ∧
    dpqStuck dpqAtEnd := by
  refine ⟨by decide, by decide, by decide, ?_⟩
  intro fuel
  induction fuel with
  | zero => rfl
  | succ n ih =>
    have hstep : dpqAtEnd.advanceTop = dpqAtEnd := by decide
    show dpqNextLoop (n + 1) dpqAtEnd.peekDoc dpqAtEnd = none
    simp only [dpqNextLoop, hstep, ne_eq, not_true_eq_false, if_false]
    exact ih

theorem gallopLoop_eq_stop (s : SparseBits) (target : Int)
    (ctx : SparseBitsContext) (hiIndex : Int) (h : ctx.index < hiIndex)
    (hge : s.docIdsLength ≤ hiIndex) :
    SparseBits.gallopLoop s target ctx hiIndex h
      = ({ ctx with nextDocId := s.maxDoc }, s.docIdsLength) := by
  unfold SparseBits.gallopLoop
  rw [dif_pos hge]

theorem gallopLoop_eq_found (s : SparseBits) (target : Int)
    (ctx : SparseBitsContext) (hiIndex : Int) (h : ctx.index < hiIndex)
    (hge : ¬ s.docIdsLength ≤ hiIndex) (hlt : target < s.docIds hiIndex) :
    SparseBits.gallopLoop s target ctx hiIndex h
      = ({ ctx with nextDocId := s.docIds hiIndex }, hiIndex) := by
  unfold SparseBits.gallopLoop
  rw [dif_neg hge]
  simp only [if_pos hlt]

theorem gallopLoop_eq_rec (s : SparseBits) (target : Int)
    (ctx : SparseBitsContext) (hiIndex : Int) (h : ctx.index < hiIndex)
    (hge : ¬ s.docIdsLength ≤ hiIndex) (hnlt : ¬ target < s.docIds hiIndex) :
    SparseBits.gallopLoop s target ctx hiIndex h
      = SparseBits.gallopLoop s target
          { ctx with index := hiIndex, docId := s.docIds hiIndex }
          (hiIndex + (hiIndex - ctx.index) * 2)
          (show hiIndex < hiIndex + (hiIndex - ctx.index) * 2 by omega) := by
  conv_lhs => rw [SparseBits.gallopLoop]
  rw [dif_neg hge]
  simp only [if_neg hnlt]

theorem gallopLoop_spec (s : SparseBits) (target : Int) (htm : target < s.maxDoc) :
    ∀ (ctx : SparseBitsContext) (hiIndex : Int) (h : ctx.index < hiIndex),
      0 ≤ ctx.index → ctx.index < s.docIdsLength →
      ctx.docId = s.docIds ctx.index → ctx.docId ≤ target →
      0 ≤ (SparseBits.gallopLoop s target ctx hiIndex h).1.index ∧
      (SparseBits.gallopLoop s target ctx hiIndex h).1.index < s.docIdsLength ∧
      (SparseBits.gallopLoop s target ctx hiIndex h).1.docId
        = s.docIds (SparseBits.gallopLoop s target ctx hiIndex h).1.index ∧
      (SparseBits.gallopLoop s target ctx hiIndex h).1.docId ≤ target ∧
      (SparseBits.gallopLoop s target ctx hiIndex h).1.index
        < (SparseBits.gallopLoop s target ctx hiIndex h).2 ∧
      (SparseBits.gallopLoop s target ctx hiIndex h).2 ≤ s.docIdsLength ∧
      (((SparseBits.gallopLoop s target ctx hiIndex h).2 = s.docIdsLength ∧
          (SparseBits.gallopLoop s target ctx hiIndex h).1.nextDocId = s.maxDoc) ∨
        ((SparseBits.gallopLoop s target ctx hiIndex h).2 < s.docIdsLength ∧
          (SparseBits.gallopLoop s target ctx hiIndex h).1.nextDocId
            = s.docIds (SparseBits.gallopLoop s target ctx hiIndex h).2)) ∧
      target < (SparseBits.gallopLoop s target ctx hiIndex h).1.nextDocId := by
  intro ctx hiIndex h
  induction ctx, hiIndex, h using SparseBits.gallopLoop.induct s target with
  | case1 ctx hi h hge =>
    intro h0 hlen hdoc hdt
    rw [gallopLoop_eq_stop s target ctx hi h hge]
    exact ⟨h0, hlen, hdoc, hdt, hlen, le_refl _, Or.inl ⟨rfl, rfl⟩, htm⟩
  | case2 ctx hi h hge hiDoc hlt =>
    intro h0 hlen hdoc hdt
    rw [gallopLoop_eq_found s target ctx hi h hge hlt]
    exact ⟨h0, hlen, hdoc, hdt, h, by omega, Or.inr ⟨by omega, rfl⟩, hlt⟩
  | case3 ctx hi h hge hiDoc hnlt ih =>
    intro h0 hlen hdoc hdt
    rw [gallopLoop_eq_rec s target ctx hi h hge hnlt]
    exact ih (show (0 : Int) ≤ hi by omega) (show hi < s.docIdsLength by omega)
      (show s.docIds hi = s.docIds hi from rfl) (show s.docIds hi ≤ target by omega)

theorem binarySearchLoop_eq_exit (s : SparseBits) (target : Int)
    (ctx : SparseBitsContext) (hiIndex : Int) (hc : ¬ ctx.index + 1 < hiIndex) :
    SparseBits.binarySearchLoop s target ctx hiIndex = ctx := by
  unfold SparseBits.binarySearchLoop
  rw [dif_neg hc]

theorem binarySearchLoop_eq_left (s : SparseBits) (target : Int)
    (ctx : SparseBitsContext) (hiIndex : Int) (hc : ctx.index + 1 < hiIndex)
    (hlt : target < s.docIds (ctx.index + (hiIndex - ctx.index) / 2)) :
    SparseBits.binarySearchLoop s target ctx hiIndex
      = SparseBits.binarySearchLoop s target
          { ctx with nextDocId := s.docIds (ctx.index + (hiIndex - ctx.index) / 2) }
          (ctx.index + (hiIndex - ctx.index) / 2) := by
  conv_lhs => rw [SparseBits.binarySearchLoop]
  rw [dif_pos hc]
  simp only [if_pos hlt]

theorem binarySearchLoop_eq_right (s : SparseBits) (target : Int)
    (ctx : SparseBitsContext) (hiIndex : Int) (hc : ctx.index + 1 < hiIndex)
    (hnlt : ¬ target < s.docIds (ctx.index + (hiIndex - ctx.index) / 2)) :
    SparseBits.binarySearchLoop s target ctx hiIndex
      = SparseBits.binarySearchLoop s target
          { ctx with
              index := ctx.index + (hiIndex - ctx.index) / 2,
              docId := s.docIds (ctx.index + (hiIndex - ctx.index) / 2) }
          hiIndex := by
  conv_lhs => rw [SparseBits.binarySearchLoop]
  rw [dif_pos hc]
  simp only [if_neg hnlt]

theorem binarySearchLoop_spec (s : SparseBits) (target : Int) :
    ∀ (ctx : SparseBitsContext) (hiIndex : Int),
      0 ≤ ctx.index → ctx.index < hiIndex → hiIndex ≤ s.docIdsLength →
      ctx.docId = s.docIds ctx.index → ctx.docId ≤ target →
      ((hiIndex = s.docIdsLength ∧ ctx.nextDocId = s.maxDoc) ∨
        (hiIndex < s.docIdsLength ∧ ctx.nextDocId = s.docIds hiIndex)) →
      target < ctx.nextDocId →
      CtxValid s (SparseBits.binarySearchLoop s target ctx hiIndex) ∧
      (SparseBits.binarySearchLoop s target ctx hiIndex).docId ≤ target ∧
      target < (SparseBits.binarySearchLoop s target ctx hiIndex).nextDocId := by
  intro ctx hiIndex
  induction ctx, hiIndex using SparseBits.binarySearchLoop.induct s target with
  | case1 ctx hi hc midIndex midDoc hlt ih =>
    intro h0 hih hile hdoc hdt hnext htn
    rw [binarySearchLoop_eq_left s target ctx hi hc hlt]
    apply ih
    · exact show (0 : Int) ≤ ctx.index from h0
    · exact show ctx.index < ctx.index + (hi - ctx.index) / 2 by omega
    · exact show ctx.index + (hi - ctx.index) / 2 ≤ s.docIdsLength by omega
    · exact show ctx.docId = s.docIds ctx.index from hdoc
    · exact show ctx.docId ≤ target from hdt
    · exact Or.inr ⟨show ctx.index + (hi - ctx.index) / 2 < s.docIdsLength by omega,
        rfl⟩
    · exact show target < s.docIds (ctx.index + (hi - ctx.index) / 2) from hlt
  | case2 ctx hi hc midIndex midDoc hnlt ih =>
    intro h0 hih hile hdoc hdt hnext htn
    have hnlt2 : ¬ target < s.docIds (ctx.index + (hi - ctx.index) / 2) := hnlt
    rw [binarySearchLoop_eq_right s target ctx hi hc hnlt]
    apply ih
    · exact show (0 : Int) ≤ ctx.index + (hi - ctx.index) / 2 by omega
    · exact show ctx.index + (hi - ctx.index) / 2 < hi by omega
    · exact show hi ≤ s.docIdsLength from hile
    · exact show s.docIds (ctx.index + (hi - ctx.index) / 2)
        = s.docIds (ctx.index + (hi - ctx.index) / 2) from rfl
    · exact show s.docIds (ctx.index + (hi - ctx.index) / 2) ≤ target by omega
    · rcases hnext with ⟨h1, h2⟩ | ⟨h1, h2⟩
      · exact Or.inl ⟨show hi = s.docIdsLength from h1,
          show ctx.nextDocId = s.maxDoc from h2⟩
      · exact Or.inr ⟨show hi < s.docIdsLength from h1,
          show ctx.nextDocId = s.docIds hi from h2⟩
    · exact show target < ctx.nextDocId from htn
  | case3 ctx hi hc =>
    intro h0 hih hile hdoc hdt hnext htn
    rw [binarySearchLoop_eq_exit s target ctx hi hc]
    refine ⟨⟨Or.inr ⟨h0, by omega, hdoc⟩, ?_⟩, hdt, htn⟩
    rcases hnext with ⟨h1, h2⟩ | ⟨h1, h2⟩
    · exact Or.inl ⟨by omega, h2⟩
    · refine Or.inr ⟨by omega, ?_⟩
      have heq : ctx.index + 1 = hi := by omega
      rw [heq]
      exact h2

theorem checkInvariants_ok (s : SparseBits) (ctx : SparseBitsContext)
    (nextIndex target : Int)
    (h1 : ctx.docId ≤ target) (h2 : target < ctx.nextDocId)
    (h3 : (ctx.index = -1 ∧ ctx.docId = -1) ∨ ctx.docId = s.docIds ctx.index)
    (h4 : (nextIndex = s.docIdsLength ∧ ctx.nextDocId = s.maxDoc) ∨
      ctx.nextDocId = s.docIds nextIndex) :
    SparseBits.checkInvariants s ctx nextIndex target = Except.ok () := by
  unfold SparseBits.checkInvariants
  rw [if_neg (by omega), if_neg (not_not_intro h3), if_neg (not_not_intro h4)]

theorem gallop_spec (s : SparseBits) (t : Int) (htm : t < s.maxDoc)
    (c0 : SparseBitsContext)
    (hind : -1 ≤ c0.index)
    (hlen2 : c0.index + 1 < s.docIdsLength)
    (hdoc : c0.nextDocId = s.docIds (c0.index + 1))
    (hdt : c0.nextDocId ≤ t) :
    0 ≤ (SparseBits.gallop s c0 t).1.index ∧
    (SparseBits.gallop s c0 t).1.index < s.docIdsLength ∧
    (SparseBits.gallop s c0 t).1.docId
      = s.docIds (SparseBits.gallop s c0 t).1.index ∧
    (SparseBits.gallop s c0 t).1.docId ≤ t ∧
    (SparseBits.gallop s c0 t).1.index < (SparseBits.gallop s c0 t).2 ∧
    (SparseBits.gallop s c0 t).2 ≤ s.docIdsLength ∧
    (((SparseBits.gallop s c0 t).2 = s.docIdsLength ∧
        (SparseBits.gallop s c0 t).1.nextDocId = s.maxDoc) ∨
      ((SparseBits.gallop s c0 t).2 < s.docIdsLength ∧
        (SparseBits.gallop s c0 t).1.nextDocId
          = s.docIds (SparseBits.gallop s c0 t).2)) ∧
    t < (SparseBits.gallop s c0 t).1.nextDocId := by
  unfold SparseBits.gallop
  exact gallopLoop_spec s t htm _ _ _
    (show (0 : Int) ≤ c0.index + 1 by omega)
    (show c0.index + 1 < s.docIdsLength from hlen2)
    (show c0.nextDocId = s.docIds (c0.index + 1) from hdoc)
    (show c0.nextDocId ≤ t from hdt)

theorem exponentialSearch_spec (s : SparseBits) (t : Int) (htm : t < s.maxDoc)
    (c0 : SparseBitsContext) (hv0 : CtxValid s c0) (htrig : c0.nextDocId ≤ t) :
    ∃ c1, SparseBits.exponentialSearch s c0 t = Except.ok c1 ∧ CtxValid s c1 ∧
      c1.docId ≤ t ∧ t < c1.nextDocId := by
  have hcase : c0.index + 1 < s.docIdsLength
      ∧ c0.nextDocId = s.docIds (c0.index + 1) := by
    rcases hv0.2 with ⟨h1, h2⟩ | h
    · exfalso; omega
    · exact h
  have hind : -1 ≤ c0.index := by
    rcases hv0.1 with ⟨h, _⟩ | ⟨h, _, _⟩ <;> omega
  obtain ⟨g0, g1, g2, g3, g4, g5, g6, g7⟩ :=
    gallop_spec s t htm c0 hind hcase.1 hcase.2 htrig
  have hchk := checkInvariants_ok s (SparseBits.gallop s c0 t).1
    (SparseBits.gallop s c0 t).2 t g3 g7 (Or.inr g2)
    (by
      rcases g6 with ⟨ha, hb⟩ | ⟨ha, hb⟩
      · exact Or.inl ⟨ha, hb⟩
      · exact Or.inr hb)
  obtain ⟨bv, bd, bn⟩ := binarySearchLoop_spec s t (SparseBits.gallop s c0 t).1
    (SparseBits.gallop s c0 t).2 g0 g4 g5 g2 g3 g6 g7
  refine ⟨SparseBits.binarySearchLoop s t (SparseBits.gallop s c0 t).1
    (SparseBits.gallop s c0 t).2, ?_, bv, bd, bn⟩
  unfold SparseBits.exponentialSearch
  dsimp only
  rw [hchk]

theorem resting_answer (s : SparseBits) (hsort : SBSorted s)
    (ctx : SparseBitsContext) (t : Int)
    (hvalid : CtxValid s ctx) (h1 : ctx.docId ≤ t) (h2 : t < ctx.nextDocId)
    (ht : 0 ≤ t) :
    (t = ctx.docId ↔ SBMem s t) := by
  constructor
  · intro he
    rcases hvalid.1 with ⟨hi, hd⟩ | ⟨hi0, hilen, hd⟩
    · exfalso; omega
    · exact ⟨ctx.index, hi0, hilen, hd.symm.trans he.symm⟩
  · rintro ⟨i, hi0, hilen, hieq⟩
    by_contra hne
    rcases hvalid.1 with ⟨hind, hdoc⟩ | ⟨hind0, hindlen, hdoc⟩
    · rcases hvalid.2 with ⟨hl, hnd⟩ | ⟨hl, hnd⟩
      · omega
      · have h0 : ctx.index + 1 = 0 := by omega
        rw [h0] at hnd
        rcases eq_or_lt_of_le hi0 with heq0 | hgt
        · rw [← heq0] at hieq
          omega
        · have hso := hsort 0 i le_rfl hgt hilen
          omega
    · rcases lt_trichotomy i ctx.index with hlt | heq | hgt
      · have hso := hsort i ctx.index hi0 hlt (by omega)
        omega
      · subst heq
        exact hne (hieq.symm.trans hdoc.symm)
      · rcases hvalid.2 with ⟨hl, hnd⟩ | ⟨hl, hnd⟩
        · omega
        · rcases eq_or_lt_of_le (show ctx.index + 1 ≤ i by omega) with heq1 | hgt1
          · rw [heq1] at hnd
            omega
          · have hso := hsort (ctx.index + 1) i (by omega) hgt1 hilen
            omega

theorem get64_main (s : SparseBits) (hsort : SBSorted s)
    (t : Int) (ht0 : 0 ≤ t) (htm : t < s.maxDoc)
    (c0 : SparseBitsContext) (hv0 : CtxValid s c0) (hd0 : c0.docId ≤ t) :
    ∃ b ctx2,
      (match (if c0.nextDocId ≤ t then SparseBits.exponentialSearch s c0 t
              else Except.ok c0) with
       | Except.error e => Except.error e
       | Except.ok c1 =>
         match SparseBits.checkInvariants s c1 (c1.index + 1) t with
         | Except.error e => Except.error e
         | Except.ok _ => Except.ok (decide (t = c1.docId), c1))
      = Except.ok (b, ctx2) ∧ (b = true ↔ SBMem s t) ∧ CtxValid s ctx2 := by
  obtain ⟨c1, hok, hv1, hd1, hn1⟩ : ∃ c1,
      (if c0.nextDocId ≤ t then SparseBits.exponentialSearch s c0 t
        else Except.ok c0) = Except.ok c1 ∧ CtxValid s c1 ∧
      c1.docId ≤ t ∧ t < c1.nextDocId := by
    by_cases hsearch : c0.nextDocId ≤ t
    · rw [if_pos hsearch]
      exact exponentialSearch_spec s t htm c0 hv0 hsearch
    · rw [if_neg hsearch]
      exact ⟨c0, rfl, hv0, hd0, by omega⟩
  have hb3 : (c1.index = -1 ∧ c1.docId = -1) ∨ c1.docId = s.docIds c1.index := by
    rcases hv1.1 with ⟨ha, hb⟩ | ⟨_, _, hb⟩
    · exact Or.inl ⟨ha, hb⟩
    · exact Or.inr hb
  have hb4 : (c1.index + 1 = s.docIdsLength ∧ c1.nextDocId = s.maxDoc) ∨
      c1.nextDocId = s.docIds (c1.index + 1) := by
    rcases hv1.2 with ⟨ha, hb⟩ | ⟨_, hb⟩
    · exact Or.inl ⟨ha, hb⟩
    · exact Or.inr hb
  refine ⟨decide (t = c1.docId), c1, ?_, ?_, hv1⟩
  · rw [hok]
    dsimp only
    rw [checkInvariants_ok s c1 (c1.index + 1) t hd1 hn1 hb3 hb4]
  · simpa using resting_answer s hsort c1 t hv1 hd1 hn1 ht0

theorem sparse_new_fields (md len : Int) (f : Int → Int) (s : SparseBits)
    (hnew : SparseBits.new md len f = Except.ok s) :
    s.maxDoc = md ∧ s.docIdsLength = len ∧ s.docIds = f ∧
    s.firstDocId = (if len = 0 then md else f 0) := by
  unfold SparseBits.new at hnew
  split at hnew
  · exact Except.noConfusion hnew
  · injection hnew with hs
    subst hs
    exact ⟨rfl, rfl, rfl, rfl⟩

/-- C4: for every `SparseBits` built by `SparseBits::new` over a strictly
ascending doc-id sequence (with `max_doc` above its last element, which
`new` itself enforces) and every target in `[0, max_doc)`, `get64` starting
from the cursor handed out by `context` — or from any cursor reachable by
prior `get64` calls, captured by the resting-state invariant `CtxValid`
which `context` establishes and every `get64` re-establishes — returns
`Ok(b, ctx2)` where `b` is true iff the target occurs in the doc-id
sequence; in particular no `IllegalState` branch of `check_invariants` is
taken. -/
theorem sparse_bits_get64_membership
    (md len : Int) (f : Int → Int) (s : SparseBits)
    (hnew : SparseBits.new md len f = Except.ok s)
    (hlen : 0 ≤ len)
    (hsorted : ∀ i j : Int, 0 ≤ i → i < j → j < len → f i < f j)
    (t : Int) (ht0 : 0 ≤ t) (htm : t < md) :
    CtxValid s (SparseBits.context s) ∧
    ∀ ctx, CtxValid s ctx →
      ∃ b ctx2, SparseBits.get64 s ctx t = Except.ok (b, ctx2) ∧
        (b = true ↔ SBMem s t) ∧ CtxValid s ctx2 := by
  obtain ⟨hmd, hl, hfeq, hfirst⟩ := sparse_new_fields md len f s hnew
  have hsort : SBSorted s := by
    intro i j hi hij hj
    rw [hfeq]
    exact hsorted i j hi hij (by omega)
  have htm2 : t < s.maxDoc := by omega
  have hctxnew : CtxValid s (SparseBitsContext.new s.firstDocId) := by
    constructor
    · exact Or.inl ⟨rfl, rfl⟩
    · by_cases h0 : len = 0
      · left
        refine ⟨by show (-1 : Int) + 1 = s.docIdsLength; omega, ?_⟩
        show s.firstDocId = s.maxDoc
        rw [hfirst, if_pos h0, hmd]
      · right
        have h01 : (-1 : Int) + 1 = 0 := by norm_num
        refine ⟨by show (-1 : Int) + 1 < s.docIdsLength; omega, ?_⟩
        show s.firstDocId = s.docIds (-1 + 1)
        rw [hfirst, if_neg h0, h01, hfeq]
  refine ⟨hctxnew, ?_⟩
  intro ctx hv
  have hc0v : CtxValid s (if t < ctx.docId then ctx.reset s.firstDocId else ctx) := by
    by_cases hr : t < ctx.docId
    · rw [if_pos hr]; exact hctxnew
    · rw [if_neg hr]; exact hv
  have hc0d : (if t < ctx.docId then ctx.reset s.firstDocId else ctx).docId ≤ t := by
    by_cases hr : t < ctx.docId
    · rw [if_pos hr]; show (-1 : Int) ≤ t; omega
    · rw [if_neg hr]; omega
  obtain ⟨b, ctx2, heq, hiff, hv2⟩ := get64_main s hsort t ht0 htm2 _ hc0v hc0d
  refine ⟨b, ctx2, ?_, hiff, hv2⟩
  unfold SparseBits.get64
  exact heq

theorem sparse_bits_get64_membership_witness :
    ∃ s, SparseBits.new 10 3 (fun i => 2 * i) = Except.ok s ∧
      CtxValid s (SparseBits.context s) ∧
      ∃ b ctx2, SparseBits.get64 s (SparseBits.context s) 4 = Except.ok (b, ctx2) ∧
        (b = true ↔ SBMem s 4) ∧ CtxValid s ctx2 := by
  refine ⟨{ maxDoc := 10, docIdsLength := 3, firstDocId := 0,
            docIds := fun i => 2 * i }, ?_, ?_⟩
  · show SparseBits.new 10 3 (fun i => 2 * i) = _
    unfold SparseBits.new
    rw [if_neg (by norm_num)]
    norm_num
  · have h := sparse_bits_get64_membership 10 3 (fun i => 2 * i)
      { maxDoc := 10, docIdsLength := 3, firstDocId := 0, docIds := fun i => 2 * i }
      (by unfold SparseBits.new; rw [if_neg (by norm_num)]; norm_num)
      (by norm_num)
      (by intro i j hi hij hj; dsimp only; omega)
      4 (by norm_num) (by norm_num)
    exact ⟨h.1, h.2 _ h.1⟩
